import Mathlib

/-!
# Receive descriptor ring walker (`capturecallback.c`)

A shallow embedding of `firehose_callback_v1` and `firehose_packet` and the
properties of the walker that the specification states.

* C `int` values are `Int`; an addition or subtraction that would leave the
  32-bit range is a fault (`Fault.int_overflow`).
* The fixed-width unsigned fields of `struct firehose_rdesc` are `Fin (2^w)`.
* Pointers (`const char *pciaddr`, the entries of `char **packets`) are
  abstract addresses (`Nat`).
* `rxring` and `packets` are lists; an access outside a list is a fault
  (`Fault.out_of_bounds`).
* The walker additionally returns the sequence of memory accesses and
  callback invocations it performed (`Event`), which is how the properties
  about the order and the arguments of the callbacks are stated.
* The model is sequential: the hardware does not write to the ring while a
  call runs, so the descriptor read by the loop condition is the one whose
  length is handed to the callback.
* The loop needs no fuel: every iteration stores 0 to the status of a
  descriptor whose ready bit was set, so the number of ready descriptors
  decreases (`termination_by ready_count m.rxring`).
-/

namespace Firehose

/-- An address held in a C pointer. -/
abbrev Ptr := Nat

/-- Intel 82599 legacy receive descriptor: `struct firehose_rdesc`. -/
structure firehose_rdesc where
  address : Fin (2 ^ 64)
  length : Fin (2 ^ 16)
  cksum : Fin (2 ^ 16)
  status : Fin (2 ^ 8)
  errors : Fin (2 ^ 8)
  vlan : Fin (2 ^ 16)
deriving DecidableEq, Repr

/-- The memory the walker works on: the descriptor ring, the table of packet
buffers, and the global `uint64_t received_packets`. -/
structure Machine where
  rxring : List firehose_rdesc
  packets : List Ptr
  received_packets : Fin (2 ^ 64)
deriving DecidableEq, Repr

/-- What the walker does, in program order. -/
inductive Event where
  /-- The loop condition read `rxring[index].status`. -/
  | rd_status (index : Int)
  /-- The body read `packets[next_index]` and prefetched that buffer. -/
  | prefetch (next_index : Int) (buf : Ptr)
  /-- The body called `firehose_packet (pciaddr, packets[index], rxring[index].length)`. -/
  | call (index : Int) (pciaddr : Ptr) (data : Ptr) (length : Int)
  /-- The body stored `rxring[index].status = 0`. -/
  | wr_status (index : Int)
deriving DecidableEq, Repr

/-- Undefined behaviour the walker could run into. -/
inductive Fault where
  | out_of_bounds
  | int_overflow
deriving DecidableEq, Repr

/-- The result of a call that returned: the returned index, the memory left
behind, and the events of the call. -/
structure Outcome where
  index : Int
  mem : Machine
  events : List Event
deriving DecidableEq, Repr

def INT_MAX : Int := 2 ^ 31 - 1

def INT_MIN : Int := -(2 ^ 31)

/-- The element `xs[index]` of a C array, when `index` is inside it. -/
def load {α : Type} (xs : List α) (index : Int) : Option α :=
  if 0 ≤ index then xs[index.toNat]? else none

/-- The loop condition `rxring[index].status & 1`. -/
def ready (d : firehose_rdesc) : Bool :=
  d.status.val &&& 1 != 0

/-- The number of descriptors of a ring whose status bit 0 is set. -/
def ready_count (rxring : List firehose_rdesc) : Nat :=
  rxring.countP ready

/-- The expression `(index + 1) & (ring_size-1)`. -/
def next_index (index ring_size : Int) : Int :=
  Int.land (index + 1) (ring_size - 1)

/-- The body of `firehose_packet`: `__sync_fetch_and_add(&received_packets, 1)`. -/
def firehose_packet (_pciaddr : Ptr) (_data : Ptr) (_length : Int) (m : Machine) : Machine :=
  { m with
    received_packets := ⟨(m.received_packets.val + 1) % 2 ^ 64, Nat.mod_lt _ (Nat.two_pow_pos 64)⟩ }

/-- The descriptor with its status field zeroed. -/
def cleared (d : firehose_rdesc) : firehose_rdesc :=
  { d with status := 0 }

/-- The store `rxring[index].status = 0`. -/
def reset_status (rxring : List firehose_rdesc) (index : Int) : List firehose_rdesc :=
  rxring.modify cleared index.toNat

/-- The function `firehose_callback_v1`: traverse the receive descriptor ring
from `index`, hand every ready packet to `firehose_packet`, reset its
descriptor, and return the updated ring index. -/
def firehose_callback_v1 (pciaddr : Ptr) (m : Machine) (ring_size index : Int) :
    Except Fault Outcome :=
  match hd : load m.rxring index with
  | none => .error .out_of_bounds
  | some d =>
    if hr : ready d = true then
      if INT_MAX < index + 1 ∨ ring_size - 1 < INT_MIN then .error .int_overflow
      else
        match load m.packets (next_index index ring_size), load m.packets index with
        | some pn, some p =>
          let m1 := firehose_packet pciaddr p d.length.val m
          let m2 : Machine := { m1 with rxring := reset_status m1.rxring index }
          match firehose_callback_v1 pciaddr m2 ring_size (next_index index ring_size) with
          | .ok r =>
            .ok { r with
              events := .rd_status index :: .prefetch (next_index index ring_size) pn ::
                .call index pciaddr p d.length.val :: .wr_status index :: r.events }
          | .error e => .error e
        | _, _ => .error .out_of_bounds
    else .ok ⟨index, m, [.rd_status index]⟩
termination_by ready_count m.rxring
decreasing_by
  have key : ∀ (xs : List firehose_rdesc) (i : Nat), xs[i]? = some d →
      List.countP ready (xs.modify cleared i) <
        List.countP ready xs := by
    intro xs
    induction xs with
    | nil => intro i h; simp at h
    | cons x xs ih =>
      intro i h
      cases i with
      | zero =>
        simp only [List.getElem?_cons_zero, Option.some.injEq] at h
        subst h
        have hx : ready x = true := hr
        simp only [List.modify_zero_cons, List.countP_cons, hx]
        have h0 : ready (cleared x) = false := by simp [ready, cleared]
        simp only [h0]
        simp
      | succ j =>
        simp only [List.getElem?_cons_succ] at h
        have := ih j h
        simp only [List.modify_succ_cons, List.countP_cons]
        omega
  unfold load at hd
  split at hd
  · exact key m.rxring index.toNat hd
  · exact absurd hd (by simp)

/-- The descriptor indices handed to the callback, in the order of the calls. -/
def dispatched : List Event → List Int
  | [] => []
  | .call index _ _ _ :: es => index :: dispatched es
  | _ :: es => dispatched es

/-- The memory after one iteration of the loop body at `index`, on a buffer
`p` and a descriptor `d`. -/
def body (pciaddr : Ptr) (p : Ptr) (d : firehose_rdesc) (m : Machine) (index : Int) : Machine :=
  let m1 := firehose_packet pciaddr p d.length.val m
  { m1 with rxring := reset_status m1.rxring index }

/-- The expression `(index + 1) & (ring_size-1)` on natural numbers. -/
def nxt (N i : Nat) : Nat :=
  (i + 1) &&& (N - 1)

/-- The list `ds` is the sequence of cursor positions `i, nxt i, nxt (nxt i), ...`
and `f` is the position that follows its last element. -/
def Path (N : Nat) : Nat → List Nat → Nat → Prop
  | i, [], f => f = i
  | i, d :: ds, f => d = i ∧ Path N (nxt N i) ds f

/-- The events of the iterations at the positions `ds`, for a packets table
`packets` and descriptor lengths `lens`. -/
def trace (pciaddr : Ptr) (N : Nat) (packets : List Ptr) (lens : List (Fin (2 ^ 16))) :
    List Nat → List Event
  | [] => []
  | j :: ds =>
    .rd_status j :: .prefetch (nxt N j) (packets.getD (nxt N j) 0) ::
      .call j pciaddr (packets.getD j 0) (lens.getD j 0).val :: .wr_status j ::
      trace pciaddr N packets lens ds

/-- What a call of the walker on memory `m` from position `i` does, in terms
of the list `ds` of positions it dispatched and the position `f` it stopped at. -/
structure WalkSpec (pciaddr : Ptr) (N : Nat) (m : Machine) (i : Nat) (r : Outcome)
    (ds : List Nat) (f : Nat) : Prop where
  index_eq : r.index = (f : Int)
  path : Path N i ds f
  final_lt : f < N
  ready_in : ∀ j ∈ ds, j < N ∧ ∃ d, m.rxring[j]? = some d ∧ ready d = true
  nodup : ds.Nodup
  packets_eq : r.mem.packets = m.packets
  counter_eq : r.mem.received_packets.val = (m.received_packets.val + ds.length) % 2 ^ 64
  ring_len : r.mem.rxring.length = m.rxring.length
  ring_at : ∀ p, r.mem.rxring[p]? = if p ∈ ds then (m.rxring[p]?).map cleared else m.rxring[p]?
  events_eq : r.events =
    trace pciaddr N m.packets (m.rxring.map (fun d => d.length)) ds ++ [.rd_status f]
  final_idle : ∃ d, r.mem.rxring[f]? = some d ∧ ready d = false

/-- The positions at which the loop condition was evaluated, in order: the
successive values of the cursor. -/
def polled : List Event → List Int
  | [] => []
  | .rd_status index :: es => index :: polled es
  | _ :: es => polled es

/-- The subtraction `packets_after - packets_before` of `speed_printer`, on
`uint64_t`. -/
def pps (packets_before packets_after : Fin (2 ^ 64)) : Nat :=
  (packets_after.val + 2 ^ 64 - packets_before.val) % 2 ^ 64

/-- The indices `index, index+1, ..., index+K-1` modulo `ring_size`. -/
def ring_order (index ring_size : Int) (K : Nat) : List Int :=
  (List.range K).map (fun j : Nat => (index + (j : Int)) % ring_size)

/-- A valid ring: `ring_size` is a power of two that a C `int` holds, the
descriptor array and the packets table have `ring_size` entries, and `index`
is in `[0, ring_size)`. -/
structure ValidRing (m : Machine) (ring_size index : Int) : Prop where
  pow2 : ∃ k : Nat, ring_size = 2 ^ k
  int_range : ring_size ≤ INT_MAX
  rxring_len : (m.rxring.length : Int) = ring_size
  packets_len : (m.packets.length : Int) = ring_size
  index_lo : 0 ≤ index
  index_hi : index < ring_size

/-- A ring of size 4 whose descriptors 3, 0 and 1 are ready and whose
descriptor 2 is not. -/
def wrap_ring : Machine :=
  { rxring := [⟨4096, 60, 0, 1, 0, 0⟩, ⟨8192, 61, 0, 3, 0, 0⟩, ⟨12288, 62, 0, 0, 0, 0⟩,
      ⟨16384, 63, 0, 1, 0, 0⟩]
    packets := [100, 101, 102, 103]
    received_packets := 0 }

/-- A ring of size 4 in which no descriptor is ready (status bit 0 clear);
descriptor 1 has another status bit set. -/
def idle_ring : Machine :=
  { rxring := [⟨4096, 60, 0, 0, 0, 0⟩, ⟨8192, 61, 0, 2, 0, 0⟩, ⟨12288, 62, 0, 0, 0, 0⟩,
      ⟨16384, 63, 0, 0, 0, 0⟩]
    packets := [100, 101, 102, 103]
    received_packets := 41 }

/-- A ring of size 4 in which every descriptor is ready. -/
def full_ring : Machine :=
  { rxring := [⟨4096, 60, 0, 1, 0, 0⟩, ⟨8192, 61, 0, 1, 0, 0⟩, ⟨12288, 62, 0, 3, 0, 0⟩,
      ⟨16384, 63, 0, 1, 1, 0⟩]
    packets := [100, 101, 102, 103]
    received_packets := 18446744073709551615 }

/-- The array index an event reads or writes: the descriptor index of a status
read, callback or status store, and the index of the prefetched buffer. -/
def event_index : Event → Int
  | .rd_status index => index
  | .prefetch next_index _ => next_index
  | .call index _ _ _ => index
  | .wr_status index => index

/-- A ring of size 6 (not a power of two) in which every descriptor is ready. -/
def six_ring : Machine :=
  { rxring := [⟨4096, 60, 0, 1, 0, 0⟩, ⟨8192, 61, 0, 1, 0, 0⟩, ⟨12288, 62, 0, 1, 0, 0⟩,
      ⟨16384, 63, 0, 1, 0, 0⟩, ⟨20480, 64, 0, 1, 0, 0⟩, ⟨24576, 65, 0, 1, 0, 0⟩]
    packets := [100, 101, 102, 103, 104, 105]
    received_packets := 0 }

/-- The argument triples `(pciaddr, data, length)` of the callbacks, in the
order of the calls. -/
def calls : List Event → List (Ptr × Ptr × Int)
  | [] => []
  | .call _ pciaddr data length :: es => (pciaddr, data, length) :: calls es
  | _ :: es => calls es

/-- The arguments `(pciaddr, packets[index], rxring[index].length)` of the
callback for the descriptor `index` of memory `m`. -/
def call_args (pciaddr : Ptr) (m : Machine) (index : Int) : Option (Ptr × Ptr × Int) :=
  match load m.packets index, load m.rxring index with
  | some p, some d => some (pciaddr, p, (d.length.val : Int))
  | _, _ => none

/-- A ring of size 8 in which the descriptors 5, 6, 7 and 0 are ready and the
others are not. -/
def scenario_ring : Machine :=
  { rxring := [⟨4096, 60, 0, 1, 0, 0⟩, ⟨8192, 61, 0, 0, 0, 0⟩, ⟨12288, 62, 0, 0, 0, 0⟩,
      ⟨16384, 63, 0, 0, 0, 0⟩, ⟨20480, 64, 0, 0, 0, 0⟩, ⟨24576, 65, 0, 1, 0, 0⟩,
      ⟨28672, 66, 0, 1, 0, 0⟩, ⟨32768, 67, 0, 1, 0, 0⟩]
    packets := [100, 101, 102, 103, 104, 105, 106, 107]
    received_packets := 0 }

/-- Two descriptors that agree in bit 0 of the status field and in the address,
length, cksum and vlan fields: they differ at most in status bits 1 to 7 and in
the errors field. -/
def same_bit0 (d d2 : firehose_rdesc) : Bool :=
  d.address == d2.address && d.length == d2.length && d.cksum == d2.cksum &&
    d.vlan == d2.vlan && d.status.val % 2 == d2.status.val % 2

/-- Two memories with the same packets table whose rings have the same length
and differ at most in status bits 1 to 7 and in errors fields. -/
def same_rings (m m2 : Machine) : Prop :=
  m.packets = m2.packets ∧ m.rxring.length = m2.rxring.length ∧
    ∀ dd ∈ List.zip m.rxring m2.rxring, same_bit0 dd.1 dd.2 = true

/-- The ring `wrap_ring` with other values in status bits 1 to 7 and in the
errors fields: descriptor 2 has status 0x02, descriptor 3 has status 0xff and
errors 0xff. -/
def wrap_ring_flags : Machine :=
  { rxring := [⟨4096, 60, 0, 129, 7, 0⟩, ⟨8192, 61, 0, 1, 1, 0⟩, ⟨12288, 62, 0, 2, 0, 0⟩,
      ⟨16384, 63, 0, 255, 255, 0⟩]
    packets := [100, 101, 102, 103]
    received_packets := 0 }

/-! ## One iteration -/

theorem walk_stop (pciaddr : Ptr) (m : Machine) (ring_size index : Int) (d : firehose_rdesc)
    (hd : load m.rxring index = some d) (hr : ready d = false) :
    firehose_callback_v1 pciaddr m ring_size index = .ok ⟨index, m, [.rd_status index]⟩ := by
  unfold firehose_callback_v1
  split
  · next h => rw [hd] at h; cases h
  · next d2 h =>
    rw [hd] at h
    cases h
    simp [hr]

theorem walk_step (pciaddr : Ptr) (m : Machine) (ring_size index : Int) (d : firehose_rdesc)
    (pn p : Ptr) (hd : load m.rxring index = some d) (hr : ready d = true)
    (h1 : index + 1 ≤ INT_MAX) (h2 : INT_MIN ≤ ring_size - 1)
    (hpn : load m.packets (next_index index ring_size) = some pn)
    (hp : load m.packets index = some p) :
    firehose_callback_v1 pciaddr m ring_size index =
      match firehose_callback_v1 pciaddr (body pciaddr p d m index) ring_size
          (next_index index ring_size) with
      | .ok r =>
        .ok { r with
          events := .rd_status index :: .prefetch (next_index index ring_size) pn ::
            .call index pciaddr p d.length.val :: .wr_status index :: r.events }
      | .error e => .error e := by
  conv_lhs => unfold firehose_callback_v1
  split
  · next h => rw [hd] at h; cases h
  · next d2 h =>
    rw [hd] at h
    cases h
    have hov : ¬ (INT_MAX < index + 1 ∨ ring_size - 1 < INT_MIN) := by omega
    simp only [hr, hov, hpn, hp, body]
    simp

/-! ## Index arithmetic -/

theorem next_index_natCast (i N : Nat) (hN : 1 ≤ N) :
    next_index (i : Int) (N : Int) = ((nxt N i : Nat) : Int) := by
  unfold next_index nxt
  have h1 : ((i : Int) + 1) = ((i + 1 : Nat) : Int) := by push_cast; rfl
  have h2 : ((N : Int) - 1) = ((N - 1 : Nat) : Int) := by omega
  rw [h1, h2]
  rfl

theorem nxt_lt (N i : Nat) (hN : 1 ≤ N) : nxt N i < N := by
  unfold nxt
  have : (i + 1) &&& (N - 1) ≤ N - 1 := Nat.and_le_right
  omega

theorem nxt_pow2 (k i : Nat) : nxt (2 ^ k) i = (i + 1) % 2 ^ k := by
  unfold nxt
  exact Nat.and_pow_two_sub_one_eq_mod (i + 1) k

theorem load_natCast {α : Type} (xs : List α) (i : Nat) : load xs (i : Int) = xs[i]? := by
  simp [load]

theorem reset_status_natCast (rxring : List firehose_rdesc) (i : Nat) :
    reset_status rxring (i : Int) = rxring.modify cleared i := by
  simp [reset_status]

theorem ready_cleared (d : firehose_rdesc) : ready (cleared d) = false := by
  simp [ready, cleared]

theorem getElem?_modify_cleared (rxring : List firehose_rdesc) (i p : Nat) :
    (rxring.modify cleared i)[p]? =
      if p = i then (rxring[p]?).map cleared else rxring[p]? := by
  rw [List.getElem?_modify]
  by_cases h : p = i
  · subst h
    simp
  · have h2 : ¬ i = p := fun e => h e.symm
    simp [h, h2]

theorem ready_count_modify_lt (rxring : List firehose_rdesc) (i : Nat) (d : firehose_rdesc)
    (hd : rxring[i]? = some d) (hr : ready d = true) :
    ready_count (rxring.modify cleared i) < ready_count rxring := by
  unfold ready_count
  induction rxring generalizing i with
  | nil => simp at hd
  | cons x xs ih =>
    cases i with
    | zero =>
      simp only [List.getElem?_cons_zero, Option.some.injEq] at hd
      subst hd
      simp only [List.modify_zero_cons, List.countP_cons, hr, ready_cleared]
      simp
    | succ j =>
      simp only [List.getElem?_cons_succ] at hd
      have := ih j hd
      simp only [List.modify_succ_cons, List.countP_cons]
      omega

/-! ## The walk as a whole -/

theorem trace_congr (pciaddr : Ptr) (N : Nat) (packets : List Ptr)
    (lens lens2 : List (Fin (2 ^ 16))) (ds : List Nat)
    (h : ∀ j ∈ ds, lens2[j]? = lens[j]?) :
    trace pciaddr N packets lens2 ds = trace pciaddr N packets lens ds := by
  induction ds with
  | nil => rfl
  | cons j ds ih =>
    have hj := h j (List.mem_cons_self j ds)
    have ht := ih (fun x hx => h x (List.mem_cons_of_mem j hx))
    simp only [trace, List.getD_eq_getElem?_getD, hj, ht]

theorem cleared_cleared (d : firehose_rdesc) : cleared (cleared d) = cleared d := rfl

theorem body_rxring (pciaddr p : Ptr) (d : firehose_rdesc) (m : Machine) (i : Nat) :
    (body pciaddr p d m (i : Int)).rxring = m.rxring.modify cleared i := by
  simp [body, firehose_packet, reset_status]

theorem body_packets (pciaddr p : Ptr) (d : firehose_rdesc) (m : Machine) (index : Int) :
    (body pciaddr p d m index).packets = m.packets := rfl

theorem body_counter (pciaddr p : Ptr) (d : firehose_rdesc) (m : Machine) (index : Int) :
    (body pciaddr p d m index).received_packets.val = (m.received_packets.val + 1) % 2 ^ 64 :=
  rfl

theorem walk_general_stop (pciaddr : Ptr) (N : Nat) (m : Machine) (i : Nat)
    (d : firehose_rdesc) (hd : m.rxring[i]? = some d) (hr : ready d = false) (hi : i < N) :
    ∃ (r : Outcome) (ds : List Nat) (f : Nat),
      firehose_callback_v1 pciaddr m N i = .ok r ∧ WalkSpec pciaddr N m i r ds f := by
  refine ⟨⟨i, m, [.rd_status i]⟩, [], i, ?_, ?_⟩
  · exact walk_stop pciaddr m N i d (by rw [load_natCast]; exact hd) hr
  · exact
      { index_eq := rfl
        path := rfl
        final_lt := hi
        ready_in := by intro j hj; cases hj
        nodup := List.nodup_nil
        packets_eq := rfl
        counter_eq := by
          have := m.received_packets.isLt
          simp only [List.length_nil, Nat.add_zero]
          omega
        ring_len := rfl
        ring_at := by intro p; simp
        events_eq := by simp [trace]
        final_idle := ⟨d, hd, hr⟩ }

theorem walk_general (pciaddr : Ptr) (N : Nat) (hN : 1 ≤ N) (hmax : (N : Int) ≤ INT_MAX) :
    ∀ (n : Nat) (m : Machine) (i : Nat), ready_count m.rxring ≤ n →
      m.rxring.length = N → m.packets.length = N → i < N →
      ∃ (r : Outcome) (ds : List Nat) (f : Nat),
        firehose_callback_v1 pciaddr m N i = .ok r ∧ WalkSpec pciaddr N m i r ds f := by
  intro n
  induction n with
  | zero =>
    intro m i hc hlen hplen hi
    obtain ⟨d, hd⟩ : ∃ d, m.rxring[i]? = some d :=
      ⟨m.rxring[i], List.getElem?_eq_getElem (by omega)⟩
    have hr : ready d = false := by
      by_contra hne
      have hrd : ready d = true := by simpa using hne
      have : 0 < ready_count m.rxring :=
        List.countP_pos_iff.mpr ⟨d, List.getElem?_mem hd, hrd⟩
      omega
    exact walk_general_stop pciaddr N m i d hd hr hi
  | succ n ih =>
    intro m i hc hlen hplen hi
    obtain ⟨d, hd⟩ : ∃ d, m.rxring[i]? = some d :=
      ⟨m.rxring[i], List.getElem?_eq_getElem (by omega)⟩
    cases hr : ready d with
    | false => exact walk_general_stop pciaddr N m i d hd hr hi
    | true =>
      have hnx : nxt N i < N := nxt_lt N i hN
      obtain ⟨p, hp⟩ : ∃ p, m.packets[i]? = some p :=
        ⟨m.packets[i], List.getElem?_eq_getElem (by omega)⟩
      obtain ⟨pn, hpn⟩ : ∃ pn, m.packets[nxt N i]? = some pn :=
        ⟨m.packets[nxt N i], List.getElem?_eq_getElem (by omega)⟩
      have hcount := ready_count_modify_lt m.rxring i d hd hr
      have hrx := body_rxring pciaddr p d m i
      obtain ⟨r, ds, f, hw, hs⟩ := ih (body pciaddr p d m i) (nxt N i)
        (by rw [hrx]; omega) (by rw [hrx, List.length_modify]; exact hlen)
        (by rw [body_packets]; exact hplen) hnx
      have hne : ∀ j ∈ ds, j ≠ i := by
        intro j hj hji
        obtain ⟨_, d2, hd2, hr2⟩ := hs.ready_in j hj
        rw [hrx, getElem?_modify_cleared, if_pos hji, hji, hd] at hd2
        simp only [Option.map_some', Option.some.injEq] at hd2
        rw [← hd2, ready_cleared] at hr2
        cases hr2
      have hmaxv : INT_MAX = 2147483647 := by simp [INT_MAX]
      have hminv : INT_MIN = -2147483648 := by simp [INT_MIN]
      refine ⟨{ r with
          events := .rd_status i :: .prefetch (nxt N i : Nat) pn ::
            .call i pciaddr p d.length.val :: .wr_status i :: r.events }, i :: ds, f, ?_, ?_⟩
      · rw [walk_step pciaddr m N i d pn p (by rw [load_natCast]; exact hd) hr
          (by omega) (by omega)
          (by rw [next_index_natCast i N hN, load_natCast]; exact hpn)
          (by rw [load_natCast]; exact hp)]
        rw [next_index_natCast i N hN, hw]
      · exact
          { index_eq := hs.index_eq
            path := ⟨rfl, hs.path⟩
            final_lt := hs.final_lt
            ready_in := by
              intro j hj
              rcases List.mem_cons.mp hj with h | h
              · subst h
                exact ⟨hi, d, hd, hr⟩
              · obtain ⟨hlt, d2, hd2, hr2⟩ := hs.ready_in j h
                rw [hrx, getElem?_modify_cleared, if_neg (hne j h)] at hd2
                exact ⟨hlt, d2, hd2, hr2⟩
            nodup := List.nodup_cons.mpr ⟨fun h => hne i h rfl, hs.nodup⟩
            packets_eq := hs.packets_eq
            counter_eq := by
              have h1 := hs.counter_eq
              rw [body_counter] at h1
              simp only [List.length_cons]
              show r.mem.received_packets.val = _
              omega
            ring_len := by
              show r.mem.rxring.length = _
              rw [hs.ring_len, hrx, List.length_modify]
            ring_at := by
              intro q
              show r.mem.rxring[q]? = _
              rw [hs.ring_at q, hrx, getElem?_modify_cleared]
              by_cases h1 : q = i
              · by_cases h2 : q ∈ ds
                · exact absurd h1 (hne q h2)
                · subst h1
                  simp [h2]
              · by_cases h2 : q ∈ ds
                · simp [h1, h2]
                · simp [h1, h2]
            events_eq := by
              show _ :: _ :: _ :: _ :: r.events = _
              rw [hs.events_eq, body_packets, hrx]
              have hcg := trace_congr pciaddr N m.packets
                (m.rxring.map (fun d => d.length))
                ((m.rxring.modify cleared i).map (fun d => d.length)) ds
                (by
                  intro j _
                  rw [List.getElem?_map, List.getElem?_map, getElem?_modify_cleared]
                  by_cases h1 : j = i
                  · rw [if_pos h1]
                    cases m.rxring[j]? <;> rfl
                  · rw [if_neg h1])
              rw [hcg]
              simp [trace, List.getD_eq_getElem?_getD, hpn, hp, hd]
            final_idle := hs.final_idle }

/-! ## Events of a walk -/

theorem dispatched_append (es fs : List Event) :
    dispatched (es ++ fs) = dispatched es ++ dispatched fs := by
  induction es with
  | nil => rfl
  | cons e es ih => cases e <;> simp [dispatched, ih]

theorem polled_append (es fs : List Event) :
    polled (es ++ fs) = polled es ++ polled fs := by
  induction es with
  | nil => rfl
  | cons e es ih => cases e <;> simp [polled, ih]

theorem dispatched_trace (pciaddr : Ptr) (N : Nat) (packets : List Ptr)
    (lens : List (Fin (2 ^ 16))) (ds : List Nat) :
    dispatched (trace pciaddr N packets lens ds) = ds.map (fun j : Nat => (j : Int)) := by
  induction ds with
  | nil => rfl
  | cons j ds ih => simp [trace, dispatched, ih]

theorem polled_trace (pciaddr : Ptr) (N : Nat) (packets : List Ptr)
    (lens : List (Fin (2 ^ 16))) (ds : List Nat) :
    polled (trace pciaddr N packets lens ds) = ds.map (fun j : Nat => (j : Int)) := by
  induction ds with
  | nil => rfl
  | cons j ds ih => simp [trace, polled, ih]

theorem call_mem_trace (pciaddr : Ptr) (N : Nat) (packets : List Ptr)
    (lens : List (Fin (2 ^ 16))) (ds : List Nat) (x : Int) (a b : Ptr) (l : Int)
    (h : Event.call x a b l ∈ trace pciaddr N packets lens ds) :
    ∃ j ∈ ds, x = (j : Int) ∧ a = pciaddr ∧ b = packets.getD j 0 ∧
      l = ((lens.getD j 0).val : Int) := by
  induction ds with
  | nil => simp [trace] at h
  | cons j ds ih =>
    simp only [trace, List.mem_cons] at h
    rcases h with h | h | h | h | h
    · cases h
    · cases h
    · cases h
      exact ⟨j, List.mem_cons_self j ds, rfl, rfl, rfl, rfl⟩
    · cases h
    · obtain ⟨j2, hj2, hrest⟩ := ih h
      exact ⟨j2, List.mem_cons_of_mem j hj2, hrest⟩

theorem wr_mem_trace (pciaddr : Ptr) (N : Nat) (packets : List Ptr)
    (lens : List (Fin (2 ^ 16))) (ds : List Nat) (x : Int)
    (h : Event.wr_status x ∈ trace pciaddr N packets lens ds) :
    ∃ j ∈ ds, x = (j : Int) := by
  induction ds with
  | nil => simp [trace] at h
  | cons j ds ih =>
    simp only [trace, List.mem_cons] at h
    rcases h with h | h | h | h | h
    · cases h
    · cases h
    · cases h
    · cases h
      exact ⟨j, List.mem_cons_self j ds, rfl⟩
    · obtain ⟨j2, hj2, hrest⟩ := ih h
      exact ⟨j2, List.mem_cons_of_mem j hj2, hrest⟩

/-! ## Rings of power-of-two size -/

theorem path_pow2 (k : Nat) (ds : List Nat) :
    ∀ (i f : Nat), Path (2 ^ k) i ds f → i < 2 ^ k →
      ds = (List.range ds.length).map (fun j => (i + j) % 2 ^ k) ∧
        f = (i + ds.length) % 2 ^ k := by
  induction ds with
  | nil =>
    intro i f hp hi
    simp only [Path] at hp
    subst hp
    simp [Nat.mod_eq_of_lt hi]
  | cons d ds ih =>
    intro i f hp hi
    obtain ⟨hd, hrest⟩ := hp
    subst hd
    have hlt : nxt (2 ^ k) d < 2 ^ k := nxt_lt _ _ (Nat.two_pow_pos k)
    obtain ⟨h1, h2⟩ := ih (nxt (2 ^ k) d) f hrest hlt
    rw [nxt_pow2] at h1 h2
    constructor
    · rw [List.length_cons, List.range_succ_eq_map, List.map_cons, List.map_map]
      congr 1
      · simp [Nat.mod_eq_of_lt hi]
      · conv_lhs => rw [h1]
        apply List.map_congr_left
        intro j _
        simp only [Function.comp, Nat.succ_eq_add_one]
        rw [Nat.mod_add_mod]
        congr 1
        omega
    · rw [h2, Nat.mod_add_mod, List.length_cons]
      congr 1
      omega

theorem length_le_of_nodup_lt (N : Nat) (ds : List Nat) (hnd : ds.Nodup)
    (hlt : ∀ j ∈ ds, j < N) : ds.length ≤ N := by
  have hsub : ds ⊆ List.range N := fun j hj => List.mem_range.mpr (hlt j hj)
  have := (List.subperm_of_subset hnd hsub).length_le
  simpa using this

theorem add_mod_inj (N i a b : Nat) (ha : a < N) (hb : b < N)
    (h : (i + a) % N = (i + b) % N) : a = b := by
  rcases Nat.le_total a b with hab | hab
  · have h0 := Nat.sub_mod_eq_zero_of_mod_eq h.symm
    have h1 : i + b - (i + a) = b - a := by omega
    rw [h1, Nat.mod_eq_of_lt (by omega)] at h0
    omega
  · have h0 := Nat.sub_mod_eq_zero_of_mod_eq h
    have h1 : i + a - (i + b) = a - b := by omega
    rw [h1, Nat.mod_eq_of_lt (by omega)] at h0
    omega

theorem natCast_add_emod (i j N : Nat) :
    ((i : Int) + (j : Int)) % (N : Int) = (((i + j) % N : Nat) : Int) := by
  push_cast
  rfl

theorem ring_order_natCast (i N K : Nat) :
    ring_order (i : Int) (N : Int) K =
      ((List.range K).map (fun j => (i + j) % N)).map (fun j : Nat => (j : Int)) := by
  unfold ring_order
  rw [List.map_map]
  apply List.map_congr_left
  intro j _
  simp only [Function.comp]
  exact natCast_add_emod i j N

/-- On a valid ring the walker returns, and what it did is described by the
number `K` of descriptors it dispatched. -/
theorem walk_valid (pciaddr : Ptr) (m : Machine) (ring_size index : Int)
    (hv : ValidRing m ring_size index) :
    ∃ (r : Outcome) (N i K : Nat), ring_size = (N : Int) ∧ index = (i : Int) ∧ i < N ∧
      K ≤ N ∧ m.rxring.length = N ∧ m.packets.length = N ∧
      firehose_callback_v1 pciaddr m ring_size index = .ok r ∧
      WalkSpec pciaddr N m i r ((List.range K).map (fun j => (i + j) % N)) ((i + K) % N) := by
  obtain ⟨⟨k, hk⟩, hmax, hlen, hplen, hlo, hhi⟩ := hv
  obtain ⟨i, rfl⟩ := Int.eq_ofNat_of_zero_le hlo
  have hN : ring_size = ((2 ^ k : Nat) : Int) := by rw [hk]; push_cast; rfl
  subst hN
  have hlen2 : m.rxring.length = 2 ^ k := by exact_mod_cast hlen
  have hplen2 : m.packets.length = 2 ^ k := by exact_mod_cast hplen
  have hi : i < 2 ^ k := by exact_mod_cast hhi
  obtain ⟨r, ds, f, hw, hs⟩ := walk_general pciaddr (2 ^ k) (Nat.two_pow_pos k) hmax
    (ready_count m.rxring) m i (Nat.le_refl _) hlen2 hplen2 hi
  obtain ⟨hds, hf⟩ := path_pow2 k ds i f hs.path hi
  have hK : ds.length ≤ 2 ^ k :=
    length_le_of_nodup_lt (2 ^ k) ds hs.nodup (fun j hj => (hs.ready_in j hj).1)
  refine ⟨r, 2 ^ k, i, ds.length, rfl, rfl, hi, hK, hlen2, hplen2, hw, ?_⟩
  rw [← hds, ← hf]
  exact hs

theorem dispatched_of_spec (pciaddr : Ptr) (N : Nat) (m : Machine) (i : Nat) (r : Outcome)
    (K : Nat)
    (hs : WalkSpec pciaddr N m i r ((List.range K).map (fun j => (i + j) % N)) ((i + K) % N)) :
    dispatched r.events = ring_order (i : Int) (N : Int) K := by
  rw [hs.events_eq, dispatched_append, dispatched_trace, ring_order_natCast]
  simp [dispatched]

theorem load_ring_natCast {α : Type} (xs : List α) (i j N : Nat) :
    load xs (((i : Int) + (j : Int)) % (N : Int)) = xs[(i + j) % N]? := by
  rw [natCast_add_emod, load_natCast]

/-- The number of descriptors dispatched is the length of the run of ready
descriptors that starts at the start index. -/
theorem run_length_unique (pciaddr : Ptr) (N : Nat) (m : Machine) (i : Nat) (r : Outcome)
    (K K2 : Nat) (hK : K ≤ N) (hK2 : K2 ≤ N)
    (hs : WalkSpec pciaddr N m i r ((List.range K2).map (fun j => (i + j) % N)) ((i + K2) % N))
    (hrun : ∀ j : Nat, j < K → ∃ d, m.rxring[(i + j) % N]? = some d ∧ ready d = true)
    (hstop : K < N → ∃ d, m.rxring[(i + K) % N]? = some d ∧ ready d = false) :
    K2 = K := by
  rcases Nat.lt_trichotomy K2 K with hlt | heq | hgt
  · exfalso
    obtain ⟨d, hd, hr⟩ := hrun K2 hlt
    obtain ⟨d2, hd2, hr2⟩ := hs.final_idle
    rw [hs.ring_at] at hd2
    by_cases hmem : (i + K2) % N ∈ (List.range K2).map (fun j => (i + j) % N)
    · obtain ⟨j, hj, hje⟩ := List.mem_map.mp hmem
      have hj2 : j < K2 := List.mem_range.mp hj
      have := add_mod_inj N i j K2 (by omega) (by omega) hje
      omega
    · rw [if_neg hmem, hd] at hd2
      cases hd2
      rw [hr] at hr2
      cases hr2
  · exact heq
  · exfalso
    obtain ⟨d, hd, hr⟩ := hstop (by omega)
    have hmem : (i + K) % N ∈ (List.range K2).map (fun j => (i + j) % N) :=
      List.mem_map.mpr ⟨K, List.mem_range.mpr hgt, rfl⟩
    obtain ⟨_, d2, hd2, hr2⟩ := hs.ready_in _ hmem
    rw [hd] at hd2
    cases hd2
    rw [hr] at hr2
    cases hr2

theorem dispatched_eq_map (pciaddr : Ptr) (N : Nat) (m : Machine) (i : Nat) (r : Outcome)
    (ds : List Nat) (f : Nat) (hs : WalkSpec pciaddr N m i r ds f) :
    dispatched r.events = ds.map (fun j : Nat => (j : Int)) := by
  rw [hs.events_eq, dispatched_append, dispatched_trace]
  simp [dispatched]

theorem mem_dispatched (pciaddr : Ptr) (N : Nat) (m : Machine) (i : Nat) (r : Outcome)
    (ds : List Nat) (f : Nat) (hs : WalkSpec pciaddr N m i r ds f) (x : Int)
    (hx : x ∈ dispatched r.events) : ∃ j ∈ ds, x = (j : Int) := by
  rw [dispatched_eq_map pciaddr N m i r ds f hs] at hx
  obtain ⟨j, hj, hje⟩ := List.mem_map.mp hx
  exact ⟨j, hj, hje.symm⟩

theorem natCast_mem_dispatched (pciaddr : Ptr) (N : Nat) (m : Machine) (i : Nat) (r : Outcome)
    (ds : List Nat) (f : Nat) (hs : WalkSpec pciaddr N m i r ds f) (j : Nat) :
    (j : Int) ∈ dispatched r.events ↔ j ∈ ds := by
  rw [dispatched_eq_map pciaddr N m i r ds f hs]
  constructor
  · intro h
    obtain ⟨j2, hj2, hje⟩ := List.mem_map.mp h
    have : j2 = j := by exact_mod_cast hje
    rw [← this]
    exact hj2
  · intro h
    exact List.mem_map.mpr ⟨j, h, rfl⟩

theorem polled_of_spec (pciaddr : Ptr) (N : Nat) (m : Machine) (i : Nat) (r : Outcome)
    (K : Nat)
    (hs : WalkSpec pciaddr N m i r ((List.range K).map (fun j => (i + j) % N)) ((i + K) % N)) :
    polled r.events = ring_order (i : Int) (N : Int) (K + 1) := by
  rw [hs.events_eq, polled_append, polled_trace, ring_order_natCast, List.range_succ]
  simp [polled]

theorem length_dispatched_of_spec (pciaddr : Ptr) (N : Nat) (m : Machine) (i : Nat)
    (r : Outcome) (K : Nat)
    (hs : WalkSpec pciaddr N m i r ((List.range K).map (fun j => (i + j) % N)) ((i + K) % N)) :
    (dispatched r.events).length = K := by
  rw [dispatched_of_spec pciaddr N m i r K hs]
  simp [ring_order]

theorem next_index_pow2 (x : Int) (k : Nat) (hx : 0 ≤ x) :
    next_index x (2 ^ k) = (x + 1) % 2 ^ k := by
  obtain ⟨i, rfl⟩ := Int.eq_ofNat_of_zero_le hx
  have h := next_index_natCast i (2 ^ k) (Nat.two_pow_pos k)
  rw [nxt_pow2] at h
  push_cast at h
  exact h

theorem start_idle_of_spec (pciaddr : Ptr) (N : Nat) (m : Machine) (i : Nat) (r : Outcome)
    (K : Nat) (hi : i < N) (hlen : m.rxring.length = N)
    (hs : WalkSpec pciaddr N m i r ((List.range K).map (fun j => (i + j) % N)) ((i + K) % N)) :
    ∃ d, r.mem.rxring[i]? = some d ∧ ready d = false := by
  cases K with
  | zero =>
    have h := hs.final_idle
    rw [Nat.add_zero, Nat.mod_eq_of_lt hi] at h
    exact h
  | succ K =>
    have hmem : i ∈ (List.range (K + 1)).map (fun j => (i + j) % N) :=
      List.mem_map.mpr ⟨0, List.mem_range.mpr (by omega), by
        show (i + 0) % N = i
        rw [Nat.add_zero, Nat.mod_eq_of_lt hi]⟩
    refine ⟨cleared m.rxring[i], ?_, ready_cleared _⟩
    rw [hs.ring_at, if_pos hmem, List.getElem?_eq_getElem (by omega)]
    rfl

theorem exists_offset (N i p : Nat) (hi : i < N) (hp : p < N) :
    ∃ j, j < N ∧ (i + j) % N = p := by
  refine ⟨(p + N - i) % N, Nat.mod_lt _ (by omega), ?_⟩
  rw [Nat.add_mod_mod]
  have h : i + (p + N - i) = p + N := by omega
  rw [h, Nat.add_mod_right, Nat.mod_eq_of_lt hp]

/-! ## The claims -/

/-- C1: on a ring of power-of-two size `ring_size`, started at `index`, when
the `K` descriptors at `index, index+1, ..., index+K-1` (mod `ring_size`) are
ready and, for `K < ring_size`, the descriptor at `(index+K) mod ring_size` is
not, `firehose_callback_v1` returns, having invoked the callback exactly `K`
times, for those indices in that order, and returns `(index+K) mod ring_size`. -/
theorem contiguous_run_dispatched (pciaddr : Ptr) (m : Machine) (ring_size index : Int)
    (K : Nat) (hv : ValidRing m ring_size index) (hK : (K : Int) ≤ ring_size)
    (hrun : ∀ j : Nat, j < K →
      ∃ d, load m.rxring ((index + (j : Int)) % ring_size) = some d ∧ ready d = true)
    (hstop : (K : Int) < ring_size →
      ∃ d, load m.rxring ((index + (K : Int)) % ring_size) = some d ∧ ready d = false) :
    ∃ r, firehose_callback_v1 pciaddr m ring_size index = .ok r ∧
      (dispatched r.events).length = K ∧
      dispatched r.events = ring_order index ring_size K ∧
      r.index = (index + (K : Int)) % ring_size := by
  obtain ⟨r, N, i, K2, rfl, rfl, hi, hK2, hlen, hplen, hw, hs⟩ :=
    walk_valid pciaddr m ring_size index hv
  have hKN : K ≤ N := by exact_mod_cast hK
  have hrun2 : ∀ j : Nat, j < K → ∃ d, m.rxring[(i + j) % N]? = some d ∧ ready d = true := by
    intro j hj
    have := hrun j hj
    rwa [load_ring_natCast] at this
  have hstop2 : K < N → ∃ d, m.rxring[(i + K) % N]? = some d ∧ ready d = false := by
    intro h
    have := hstop (by exact_mod_cast h)
    rwa [load_ring_natCast] at this
  have hKK := run_length_unique pciaddr N m i r K K2 hKN hK2 hs hrun2 hstop2
  subst hKK
  have hd := dispatched_of_spec pciaddr N m i r K2 hs
  refine ⟨r, hw, ?_, hd, ?_⟩
  · rw [hd]
    simp [ring_order]
  · rw [hs.index_eq, natCast_add_emod]

theorem contiguous_run_dispatched_witness :
    ∃ r, firehose_callback_v1 7 wrap_ring 4 3 = .ok r ∧
      (dispatched r.events).length = 3 ∧
      dispatched r.events = [3, 0, 1] ∧
      r.index = 2 := by
  have h := contiguous_run_dispatched 7 wrap_ring 4 3 3
    ⟨⟨2, by norm_num⟩, by decide, by decide, by decide, by decide, by decide⟩ (by decide)
    (by intro j hj; interval_cases j <;> exact ⟨_, rfl, rfl⟩)
    (fun _ => ⟨_, rfl, rfl⟩)
  have h1 : ring_order 3 4 3 = [3, 0, 1] := by decide
  have h2 : ((3 : Int) + ((3 : Nat) : Int)) % 4 = 2 := by decide
  rw [h1, h2] at h
  exact h

/-- C2: on a valid ring `firehose_callback_v1` returns, the descriptors it
dispatched are `index, index+1, ...` (mod `ring_size`) in that order, each of
them had status bit 0 set in the ring the walker was given, and no descriptor
is dispatched twice. -/
theorem ring_order_ready_only_no_repeat (pciaddr : Ptr) (m : Machine)
    (ring_size index : Int) (hv : ValidRing m ring_size index) :
    ∃ r, firehose_callback_v1 pciaddr m ring_size index = .ok r ∧
      dispatched r.events = ring_order index ring_size (dispatched r.events).length ∧
      (∀ x ∈ dispatched r.events, ∃ d, load m.rxring x = some d ∧ ready d = true) ∧
      (dispatched r.events).Nodup := by
  obtain ⟨r, N, i, K, rfl, rfl, hi, hK, hlen, hplen, hw, hs⟩ :=
    walk_valid pciaddr m ring_size index hv
  have hd := dispatched_of_spec pciaddr N m i r K hs
  refine ⟨r, hw, ?_, ?_, ?_⟩
  · have hl : (dispatched r.events).length = K := by rw [hd]; simp [ring_order]
    rw [hl]
    exact hd
  · intro x hx
    obtain ⟨j, hj, rfl⟩ := mem_dispatched pciaddr N m i r _ _ hs x hx
    obtain ⟨_, d, hdj, hr⟩ := hs.ready_in j hj
    exact ⟨d, by rw [load_natCast]; exact hdj, hr⟩
  · rw [dispatched_eq_map pciaddr N m i r _ _ hs]
    exact hs.nodup.map (fun a b h => by exact_mod_cast h)

theorem ring_order_ready_only_no_repeat_witness :
    ∃ r, firehose_callback_v1 7 wrap_ring 4 3 = .ok r ∧
      dispatched r.events = ring_order 3 4 (dispatched r.events).length ∧
      (∀ x ∈ dispatched r.events, ∃ d, load wrap_ring.rxring x = some d ∧ ready d = true) ∧
      (dispatched r.events).Nodup :=
  ring_order_ready_only_no_repeat 7 wrap_ring 4 3
    ⟨⟨2, by norm_num⟩, by decide, by decide, by decide, by decide, by decide⟩

/-- C3: on a valid ring, after `firehose_callback_v1` returns, every descriptor
for which the callback was invoked has status field 0, so its ready bit is
clear. -/
theorem dispatched_status_cleared (pciaddr : Ptr) (m : Machine)
    (ring_size index : Int) (hv : ValidRing m ring_size index) :
    ∃ r, firehose_callback_v1 pciaddr m ring_size index = .ok r ∧
      ∀ x ∈ dispatched r.events,
        ∃ d, load r.mem.rxring x = some d ∧ d.status = 0 ∧ ready d = false := by
  obtain ⟨r, N, i, K, rfl, rfl, hi, hK, hlen, hplen, hw, hs⟩ :=
    walk_valid pciaddr m ring_size index hv
  refine ⟨r, hw, ?_⟩
  intro x hx
  obtain ⟨j, hj, rfl⟩ := mem_dispatched pciaddr N m i r _ _ hs x hx
  obtain ⟨_, d, hdj, _⟩ := hs.ready_in j hj
  refine ⟨cleared d, ?_, rfl, ready_cleared d⟩
  rw [load_natCast, hs.ring_at, if_pos hj, hdj]
  rfl

theorem dispatched_status_cleared_witness :
    ∃ r, firehose_callback_v1 7 wrap_ring 4 3 = .ok r ∧
      ∀ x ∈ dispatched r.events,
        ∃ d, load r.mem.rxring x = some d ∧ d.status = 0 ∧ ready d = false :=
  dispatched_status_cleared 7 wrap_ring 4 3
    ⟨⟨2, by norm_num⟩, by decide, by decide, by decide, by decide, by decide⟩

/-- C4: on a ring in which no descriptor has status bit 0 set, started at an
index inside the ring, `firehose_callback_v1` returns the index it was given,
makes no callback and leaves the memory as it was. -/
theorem empty_ring_noop (pciaddr : Ptr) (m : Machine) (ring_size index : Int)
    (hlo : 0 ≤ index) (hhi : index < (m.rxring.length : Int))
    (hnone : ∀ d ∈ m.rxring, ready d = false) :
    ∃ r, firehose_callback_v1 pciaddr m ring_size index = .ok r ∧
      r.index = index ∧ dispatched r.events = [] ∧ r.mem = m := by
  obtain ⟨i, rfl⟩ := Int.eq_ofNat_of_zero_le hlo
  have hi : i < m.rxring.length := by exact_mod_cast hhi
  have hd : m.rxring[i]? = some m.rxring[i] := List.getElem?_eq_getElem hi
  refine ⟨⟨i, m, [.rd_status i]⟩, ?_, rfl, rfl, rfl⟩
  exact walk_stop pciaddr m ring_size i m.rxring[i] (by rw [load_natCast]; exact hd)
    (hnone _ (List.getElem?_mem hd))

theorem empty_ring_noop_witness :
    ∃ r, firehose_callback_v1 7 idle_ring 4 2 = .ok r ∧
      r.index = 2 ∧ dispatched r.events = [] ∧ r.mem = idle_ring :=
  empty_ring_noop 7 idle_ring 4 2 (by decide) (by decide) (by decide)

/-- C5: on a valid ring, every callback invocation made by
`firehose_callback_v1` for a descriptor index `x` receives the device
identifier given to the walker, the entry `packets[x]` of the packets table,
and the length field of `rxring[x]` of the ring the walker was given, a value
in `[0, 65535]`. -/
theorem callback_arguments (pciaddr : Ptr) (m : Machine) (ring_size index : Int)
    (hv : ValidRing m ring_size index) :
    ∃ r, firehose_callback_v1 pciaddr m ring_size index = .ok r ∧
      ∀ (x : Int) (a b : Ptr) (l : Int), Event.call x a b l ∈ r.events →
        a = pciaddr ∧ load m.packets x = some b ∧
        (∃ d, load m.rxring x = some d ∧ l = (d.length.val : Int)) ∧
        0 ≤ l ∧ l ≤ 65535 := by
  obtain ⟨r, N, i, K, rfl, rfl, hi, hK, hlen, hplen, hw, hs⟩ :=
    walk_valid pciaddr m ring_size index hv
  refine ⟨r, hw, ?_⟩
  intro x a b l hmem
  rw [hs.events_eq, List.mem_append] at hmem
  rcases hmem with hmem | hmem
  · obtain ⟨j, hj, rfl, rfl, rfl, rfl⟩ := call_mem_trace _ _ _ _ _ x a b l hmem
    obtain ⟨hjN, d, hdj, _⟩ := hs.ready_in j hj
    have hlenj : (m.rxring.map (fun d => d.length)).getD j 0 = d.length := by
      rw [List.getD_eq_getElem?_getD, List.getElem?_map, hdj]
      rfl
    have hpj : m.packets[j]? = some (m.packets.getD j 0) := by
      rw [List.getD_eq_getElem?_getD, List.getElem?_eq_getElem (by omega)]
      rfl
    have hb := d.length.isLt
    refine ⟨rfl, by rw [load_natCast]; exact hpj, ⟨d, by rw [load_natCast]; exact hdj, ?_⟩,
      ?_, ?_⟩
    · rw [hlenj]
    · omega
    · rw [hlenj]
      have : (d.length.val : Int) < 2 ^ 16 := by exact_mod_cast hb
      omega
  · simp at hmem

theorem callback_arguments_witness :
    ∃ r, firehose_callback_v1 7 wrap_ring 4 3 = .ok r ∧
      ∀ (x : Int) (a b : Ptr) (l : Int), Event.call x a b l ∈ r.events →
        a = 7 ∧ load wrap_ring.packets x = some b ∧
        (∃ d, load wrap_ring.rxring x = some d ∧ l = (d.length.val : Int)) ∧
        0 ≤ l ∧ l ≤ 65535 :=
  callback_arguments 7 wrap_ring 4 3
    ⟨⟨2, by norm_num⟩, by decide, by decide, by decide, by decide, by decide⟩

/-- C6: for a ring size that is a power of two the bitmask
`(index+1) & (ring_size-1)` is `(index+1) mod ring_size`, and on a valid ring
the cursor of `firehose_callback_v1` takes the values
`index, index+1, ...` (mod `ring_size`), one step per dispatched descriptor,
the descriptors dispatched being exactly the cursor values before the last;
the returned index is in `[0, ring_size)` and is
`(index + number of callbacks) mod ring_size`. -/
theorem cursor_advances_by_one (pciaddr : Ptr) (m : Machine) (ring_size index : Int)
    (hv : ValidRing m ring_size index) :
    (∀ x : Int, 0 ≤ x → x < ring_size →
      next_index x ring_size = (x + 1) % ring_size) ∧
    ∃ r, firehose_callback_v1 pciaddr m ring_size index = .ok r ∧
      polled r.events = ring_order index ring_size ((dispatched r.events).length + 1) ∧
      dispatched r.events = ring_order index ring_size (dispatched r.events).length ∧
      0 ≤ r.index ∧ r.index < ring_size ∧
      r.index = (index + ((dispatched r.events).length : Int)) % ring_size := by
  constructor
  · intro x hx _
    obtain ⟨k, hk⟩ := hv.pow2
    rw [hk]
    exact next_index_pow2 x k hx
  · obtain ⟨r, N, i, K, rfl, rfl, hi, hK, hlen, hplen, hw, hs⟩ :=
      walk_valid pciaddr m ring_size index hv
    have hl := length_dispatched_of_spec pciaddr N m i r K hs
    refine ⟨r, hw, ?_, ?_, ?_, ?_, ?_⟩
    · rw [hl]
      exact polled_of_spec pciaddr N m i r K hs
    · rw [hl]
      exact dispatched_of_spec pciaddr N m i r K hs
    · rw [hs.index_eq]
      omega
    · rw [hs.index_eq]
      exact_mod_cast hs.final_lt
    · rw [hs.index_eq, hl, natCast_add_emod]

theorem cursor_advances_by_one_witness :
    (∀ x : Int, 0 ≤ x → x < 4 → next_index x 4 = (x + 1) % 4) ∧
    ∃ r, firehose_callback_v1 7 wrap_ring 4 3 = .ok r ∧
      polled r.events = ring_order 3 4 ((dispatched r.events).length + 1) ∧
      dispatched r.events = ring_order 3 4 (dispatched r.events).length ∧
      0 ≤ r.index ∧ r.index < 4 ∧
      r.index = (3 + ((dispatched r.events).length : Int)) % 4 :=
  cursor_advances_by_one 7 wrap_ring 4 3
    ⟨⟨2, by norm_num⟩, by decide, by decide, by decide, by decide, by decide⟩

/-- C7: on a valid ring, a call of `firehose_callback_v1` that makes `K`
callbacks leaves `received_packets` at its previous value plus `K` modulo
`2^64`, so that the difference of a snapshot after and a snapshot before the
call, as `speed_printer` computes it, is `K`. -/
theorem counter_increases_by_dispatched (pciaddr : Ptr) (m : Machine)
    (ring_size index : Int) (hv : ValidRing m ring_size index) :
    ∃ r, firehose_callback_v1 pciaddr m ring_size index = .ok r ∧
      r.mem.received_packets.val =
        (m.received_packets.val + (dispatched r.events).length) % 2 ^ 64 ∧
      pps m.received_packets r.mem.received_packets = (dispatched r.events).length := by
  have hmax := hv.int_range
  obtain ⟨r, N, i, K, rfl, rfl, hi, hK, hlen, hplen, hw, hs⟩ :=
    walk_valid pciaddr m ring_size index hv
  have hl := length_dispatched_of_spec pciaddr N m i r K hs
  have hc := hs.counter_eq
  simp only [List.length_map, List.length_range] at hc
  refine ⟨r, hw, ?_, ?_⟩
  · rw [hl]
    exact hc
  · rw [hl]
    unfold pps
    rw [hc]
    have hN : N ≤ 2147483647 := by
      have : (N : Int) ≤ 2147483647 := by simpa [INT_MAX] using hmax
      exact_mod_cast this
    have := m.received_packets.isLt
    omega

theorem counter_increases_by_dispatched_witness :
    ∃ r, firehose_callback_v1 7 wrap_ring 4 3 = .ok r ∧
      r.mem.received_packets.val =
        (wrap_ring.received_packets.val + (dispatched r.events).length) % 2 ^ 64 ∧
      pps wrap_ring.received_packets r.mem.received_packets = (dispatched r.events).length :=
  counter_increases_by_dispatched 7 wrap_ring 4 3
    ⟨⟨2, by norm_num⟩, by decide, by decide, by decide, by decide, by decide⟩

/-- C8: on a valid ring, when `firehose_callback_v1` is called again on the
memory it left behind, with the original start index or with the index it
returned, the second call makes no callback (its only event is the read of
one status field), returns the index it was given and leaves the memory
unchanged. -/
theorem second_poll_noop (pciaddr : Ptr) (m : Machine) (ring_size index : Int)
    (hv : ValidRing m ring_size index) :
    ∃ r, firehose_callback_v1 pciaddr m ring_size index = .ok r ∧
      firehose_callback_v1 pciaddr r.mem ring_size index =
        .ok ⟨index, r.mem, [.rd_status index]⟩ ∧
      firehose_callback_v1 pciaddr r.mem ring_size r.index =
        .ok ⟨r.index, r.mem, [.rd_status r.index]⟩ ∧
      dispatched [Event.rd_status index] = [] ∧
      dispatched [Event.rd_status r.index] = [] := by
  obtain ⟨r, N, i, K, rfl, rfl, hi, hK, hlen, hplen, hw, hs⟩ :=
    walk_valid pciaddr m ring_size index hv
  obtain ⟨d1, hd1, hr1⟩ := start_idle_of_spec pciaddr N m i r K hi hlen hs
  obtain ⟨d2, hd2, hr2⟩ := hs.final_idle
  refine ⟨r, hw, ?_, ?_, rfl, rfl⟩
  · exact walk_stop pciaddr r.mem N i d1 (by rw [load_natCast]; exact hd1) hr1
  · rw [hs.index_eq]
    exact walk_stop pciaddr r.mem N _ d2 (by rw [load_natCast]; exact hd2) hr2

theorem second_poll_noop_witness :
    ∃ r, firehose_callback_v1 7 wrap_ring 4 3 = .ok r ∧
      firehose_callback_v1 7 r.mem 4 3 = .ok ⟨3, r.mem, [.rd_status 3]⟩ ∧
      firehose_callback_v1 7 r.mem 4 r.index = .ok ⟨r.index, r.mem, [.rd_status r.index]⟩ ∧
      dispatched [Event.rd_status 3] = [] ∧
      dispatched [Event.rd_status r.index] = [] :=
  second_poll_noop 7 wrap_ring 4 3
    ⟨⟨2, by norm_num⟩, by decide, by decide, by decide, by decide, by decide⟩

/-- C9: on a valid ring `firehose_callback_v1` returns after at most
`ring_size` iterations, and when all `ring_size` descriptors are ready it
makes exactly `ring_size` iterations, dispatching every descriptor once, in
ring order from `index`, returns `index`, and leaves every status field 0. -/
theorem full_ring_one_pass (pciaddr : Ptr) (m : Machine) (ring_size index : Int)
    (hv : ValidRing m ring_size index) :
    ∃ r, firehose_callback_v1 pciaddr m ring_size index = .ok r ∧
      ((dispatched r.events).length : Int) ≤ ring_size ∧
      ((∀ d ∈ m.rxring, ready d = true) →
        ((dispatched r.events).length : Int) = ring_size ∧
        dispatched r.events = ring_order index ring_size ring_size.toNat ∧
        (dispatched r.events).Nodup ∧
        (∀ x : Int, 0 ≤ x → x < ring_size → x ∈ dispatched r.events) ∧
        r.index = index ∧
        ∀ d ∈ r.mem.rxring, d.status = 0) := by
  obtain ⟨r, N, i, K, rfl, rfl, hi, hK, hlen, hplen, hw, hs⟩ :=
    walk_valid pciaddr m ring_size index hv
  have hl := length_dispatched_of_spec pciaddr N m i r K hs
  refine ⟨r, hw, by rw [hl]; exact_mod_cast hK, ?_⟩
  intro hall
  have hKN : K = N := by
    apply run_length_unique pciaddr N m i r N K (Nat.le_refl N) hK hs
    · intro j _
      have hlt : (i + j) % N < m.rxring.length := by
        rw [hlen]
        exact Nat.mod_lt _ (by omega)
      exact ⟨m.rxring[(i + j) % N], List.getElem?_eq_getElem hlt,
        hall _ (List.getElem_mem hlt)⟩
    · intro h
      omega
  subst hKN
  have hmemall : ∀ p, p < K → p ∈ (List.range K).map (fun j => (i + j) % K) := by
    intro p hp
    obtain ⟨j, hj, hje⟩ := exists_offset K i p hi hp
    exact List.mem_map.mpr ⟨j, List.mem_range.mpr hj, hje⟩
  refine ⟨by rw [hl], ?_, ?_, ?_, ?_, ?_⟩
  · rw [Int.toNat_ofNat]
    exact dispatched_of_spec pciaddr K m i r K hs
  · rw [dispatched_eq_map pciaddr K m i r _ _ hs]
    exact hs.nodup.map (fun a b h => by exact_mod_cast h)
  · intro x hx0 hxN
    obtain ⟨p, rfl⟩ := Int.eq_ofNat_of_zero_le hx0
    have hp : p < K := by exact_mod_cast hxN
    exact (natCast_mem_dispatched pciaddr K m i r _ _ hs p).mpr (hmemall p hp)
  · rw [hs.index_eq, Nat.add_mod_right, Nat.mod_eq_of_lt hi]
  · intro d hd
    obtain ⟨p, hp⟩ := List.getElem?_of_mem hd
    have hpl : p < r.mem.rxring.length := by
      by_contra hge
      rw [List.getElem?_eq_none (by omega)] at hp
      cases hp
    have hpK : p < K := by
      rw [hs.ring_len, hlen] at hpl
      exact hpl
    rw [hs.ring_at, if_pos (hmemall p hpK), List.getElem?_eq_getElem (by omega)] at hp
    simp only [Option.map_some', Option.some.injEq] at hp
    rw [← hp]
    rfl

theorem full_ring_one_pass_witness :
    ∃ r, firehose_callback_v1 7 full_ring 4 1 = .ok r ∧
      ((dispatched r.events).length : Int) ≤ 4 ∧
      ((dispatched r.events).length : Int) = 4 ∧
      dispatched r.events = ring_order 1 4 (4 : Int).toNat ∧
      (dispatched r.events).Nodup ∧
      (∀ x : Int, 0 ≤ x → x < 4 → x ∈ dispatched r.events) ∧
      r.index = 1 ∧
      ∀ d ∈ r.mem.rxring, d.status = 0 := by
  obtain ⟨r, h1, h2, h3⟩ := full_ring_one_pass 7 full_ring 4 1
    ⟨⟨2, by norm_num⟩, by decide, by decide, by decide, by decide, by decide⟩
  exact ⟨r, h1, h2, h3 (by decide)⟩

/-- C10: on a valid ring `firehose_callback_v1` leaves the packets table and
the length of the ring as they were, stores only to the status field of
descriptors it dispatched, and leaves the address, length, cksum, errors and
vlan fields of every descriptor, and every descriptor it did not dispatch, as
they were. -/
theorem frame_only_status_written (pciaddr : Ptr) (m : Machine) (ring_size index : Int)
    (hv : ValidRing m ring_size index) :
    ∃ r, firehose_callback_v1 pciaddr m ring_size index = .ok r ∧
      r.mem.packets = m.packets ∧
      r.mem.rxring.length = m.rxring.length ∧
      r.mem.rxring.map (fun d => d.address) = m.rxring.map (fun d => d.address) ∧
      (∀ x : Int, Event.wr_status x ∈ r.events → x ∈ dispatched r.events) ∧
      ∀ (x : Int) (d : firehose_rdesc), load m.rxring x = some d →
        ∃ d2, load r.mem.rxring x = some d2 ∧
          d2.address = d.address ∧ d2.length = d.length ∧ d2.cksum = d.cksum ∧
          d2.errors = d.errors ∧ d2.vlan = d.vlan ∧
          (x ∉ dispatched r.events → d2 = d) := by
  obtain ⟨r, N, i, K, rfl, rfl, hi, hK, hlen, hplen, hw, hs⟩ :=
    walk_valid pciaddr m ring_size index hv
  have hpt : ∀ (p : Nat) (d : firehose_rdesc), m.rxring[p]? = some d →
      ∃ d2, r.mem.rxring[p]? = some d2 ∧
        d2.address = d.address ∧ d2.length = d.length ∧ d2.cksum = d.cksum ∧
        d2.errors = d.errors ∧ d2.vlan = d.vlan ∧
        ((p : Int) ∉ dispatched r.events → d2 = d) := by
    intro p d hd
    rw [hs.ring_at, hd]
    by_cases hmem : p ∈ (List.range K).map (fun j => (i + j) % N)
    · rw [if_pos hmem]
      refine ⟨cleared d, rfl, rfl, rfl, rfl, rfl, rfl, ?_⟩
      intro hnot
      exact absurd ((natCast_mem_dispatched pciaddr N m i r _ _ hs p).mpr hmem) hnot
    · rw [if_neg hmem]
      exact ⟨d, rfl, rfl, rfl, rfl, rfl, rfl, fun _ => rfl⟩
  refine ⟨r, hw, hs.packets_eq, hs.ring_len, ?_, ?_, ?_⟩
  · apply List.ext_getElem?
    intro p
    rw [List.getElem?_map, List.getElem?_map]
    cases hd : m.rxring[p]? with
    | none =>
      have hge : m.rxring.length ≤ p := by
        by_contra hlt
        rw [List.getElem?_eq_getElem (by omega)] at hd
        cases hd
      rw [List.getElem?_eq_none (by rw [hs.ring_len]; exact hge)]
    | some d =>
      obtain ⟨d2, hd2, ha, _⟩ := hpt p d hd
      rw [hd2]
      simp [ha]
  · intro x hx
    rw [hs.events_eq, List.mem_append] at hx
    rcases hx with hx | hx
    · obtain ⟨j, hj, rfl⟩ := wr_mem_trace _ _ _ _ _ x hx
      exact (natCast_mem_dispatched pciaddr N m i r _ _ hs j).mpr hj
    · simp at hx
  · intro x d hd
    unfold load at hd
    split at hd
    · next h0 =>
      obtain ⟨p, rfl⟩ := Int.eq_ofNat_of_zero_le h0
      rw [Int.toNat_ofNat] at hd
      rw [load_natCast]
      exact hpt p d hd
    · cases hd

theorem frame_only_status_written_witness :
    ∃ r, firehose_callback_v1 7 wrap_ring 4 3 = .ok r ∧
      r.mem.packets = wrap_ring.packets ∧
      r.mem.rxring.length = wrap_ring.rxring.length ∧
      r.mem.rxring.map (fun d => d.address) = wrap_ring.rxring.map (fun d => d.address) ∧
      (∀ x : Int, Event.wr_status x ∈ r.events → x ∈ dispatched r.events) ∧
      ∀ (x : Int) (d : firehose_rdesc), load wrap_ring.rxring x = some d →
        ∃ d2, load r.mem.rxring x = some d2 ∧
          d2.address = d.address ∧ d2.length = d.length ∧ d2.cksum = d.cksum ∧
          d2.errors = d.errors ∧ d2.vlan = d.vlan ∧
          (x ∉ dispatched r.events → d2 = d) :=
  frame_only_status_written 7 wrap_ring 4 3
    ⟨⟨2, by norm_num⟩, by decide, by decide, by decide, by decide, by decide⟩

/-! ## Bounds on the indices used -/

theorem trace_index_bounds (pciaddr : Ptr) (N : Nat) (hN : 1 ≤ N) (packets : List Ptr)
    (lens : List (Fin (2 ^ 16))) (ds : List Nat) (hds : ∀ j ∈ ds, j < N) :
    ∀ e ∈ trace pciaddr N packets lens ds,
      0 ≤ event_index e ∧ event_index e < (N : Int) := by
  induction ds with
  | nil =>
    intro e he
    simp [trace] at he
  | cons j ds ih =>
    intro e he
    have hj : j < N := hds j (List.mem_cons_self j ds)
    have hn : nxt N j < N := nxt_lt N j hN
    simp only [trace, List.mem_cons] at he
    rcases he with he | he | he | he | he
    · subst he
      simp only [event_index]
      omega
    · subst he
      simp only [event_index]
      omega
    · subst he
      simp only [event_index]
      omega
    · subst he
      simp only [event_index]
      omega
    · exact ih (fun x hx => hds x (List.mem_cons_of_mem j hx)) e he

theorem events_index_bounds (pciaddr : Ptr) (N : Nat) (hN : 1 ≤ N) (m : Machine) (i : Nat)
    (r : Outcome) (ds : List Nat) (f : Nat) (hs : WalkSpec pciaddr N m i r ds f) :
    ∀ e ∈ r.events, 0 ≤ event_index e ∧ event_index e < (N : Int) := by
  intro e he
  rw [hs.events_eq, List.mem_append] at he
  rcases he with he | he
  · exact trace_index_bounds pciaddr N hN _ _ ds (fun j hj => (hs.ready_in j hj).1) e he
  · simp only [List.mem_singleton] at he
    subst he
    have := hs.final_lt
    simp only [event_index]
    omega

theorem length_le_ready_count (ds : List Nat) :
    ∀ (rxring : List firehose_rdesc), ds.Nodup →
      (∀ j ∈ ds, ∃ d, rxring[j]? = some d ∧ ready d = true) →
      ds.length ≤ ready_count rxring := by
  induction ds with
  | nil =>
    intro rxring _ _
    simp
  | cons j ds ih =>
    intro rxring hnd hr
    obtain ⟨hj, hnd2⟩ := List.nodup_cons.mp hnd
    obtain ⟨d, hd, hrd⟩ := hr j (List.mem_cons_self j ds)
    have hlt := ready_count_modify_lt rxring j d hd hrd
    have hrest := ih (rxring.modify cleared j) hnd2 (by
      intro x hx
      obtain ⟨dx, hdx, hrx⟩ := hr x (List.mem_cons_of_mem j hx)
      have hne : x ≠ j := fun e => hj (e ▸ hx)
      exact ⟨dx, by rw [getElem?_modify_cleared, if_neg hne]; exact hdx, hrx⟩)
    simp only [List.length_cons]
    omega

/-- C13: on a valid ring `firehose_callback_v1` does not fault: it returns,
every index it uses to read or write `rxring` or `packets` (the status reads,
the prefetched `packets[next_index]`, the callback arguments and the status
stores) is in `[0, ring_size)`, which is inside both arrays, and neither
`index + 1` nor `ring_size - 1` leaves the range of a C `int`. -/
theorem hot_path_in_bounds (pciaddr : Ptr) (m : Machine) (ring_size index : Int)
    (hv : ValidRing m ring_size index) :
    ∃ r, firehose_callback_v1 pciaddr m ring_size index = .ok r ∧
      (∀ e ∈ r.events, 0 ≤ event_index e ∧ event_index e < ring_size ∧
        event_index e < (m.rxring.length : Int) ∧
        event_index e < (m.packets.length : Int)) ∧
      (∀ x ∈ polled r.events, INT_MIN ≤ x + 1 ∧ x + 1 ≤ INT_MAX) ∧
      INT_MIN ≤ ring_size - 1 ∧ ring_size - 1 ≤ INT_MAX := by
  have hmax := hv.int_range
  obtain ⟨r, N, i, K, rfl, rfl, hi, hK, hlen, hplen, hw, hs⟩ :=
    walk_valid pciaddr m ring_size index hv
  have hN : 1 ≤ N := by omega
  have hmaxv : INT_MAX = 2147483647 := by simp [INT_MAX]
  have hminv : INT_MIN = -2147483648 := by simp [INT_MIN]
  refine ⟨r, hw, ?_, ?_, by omega, by omega⟩
  · intro e he
    obtain ⟨h0, h1⟩ := events_index_bounds pciaddr N hN m i r _ _ hs e he
    rw [hlen, hplen]
    exact ⟨h0, h1, h1, h1⟩
  · intro x hx
    rw [polled_of_spec pciaddr N m i r K hs, ring_order_natCast] at hx
    obtain ⟨j, hj, rfl⟩ := List.mem_map.mp hx
    obtain ⟨t, _, rfl⟩ := List.mem_map.mp hj
    have : (i + t) % N < N := Nat.mod_lt _ (by omega)
    omega

theorem hot_path_in_bounds_witness :
    ∃ r, firehose_callback_v1 7 wrap_ring 4 3 = .ok r ∧
      (∀ e ∈ r.events, 0 ≤ event_index e ∧ event_index e < 4 ∧
        event_index e < (wrap_ring.rxring.length : Int) ∧
        event_index e < (wrap_ring.packets.length : Int)) ∧
      (∀ x ∈ polled r.events, INT_MIN ≤ x + 1 ∧ x + 1 ≤ INT_MAX) ∧
      INT_MIN ≤ (4 : Int) - 1 ∧ (4 : Int) - 1 ≤ INT_MAX :=
  hot_path_in_bounds 7 wrap_ring 4 3
    ⟨⟨2, by norm_num⟩, by decide, by decide, by decide, by decide, by decide⟩

/-- C18: for every `ring_size >= 1` that a C `int` holds, a power of two or
not, with both arrays of `ring_size` entries and a start index in
`[0, ring_size)`, `firehose_callback_v1` returns, every index it uses and the
index it returns are in `[0, ring_size)`, no descriptor is dispatched twice,
and the number of callbacks is at most the number of ready descriptors of the
input ring. -/
theorem any_size_terminates_in_bounds (pciaddr : Ptr) (m : Machine) (ring_size index : Int)
    (h1 : 1 ≤ ring_size) (hmax : ring_size ≤ INT_MAX)
    (hlen : (m.rxring.length : Int) = ring_size)
    (hplen : (m.packets.length : Int) = ring_size)
    (hlo : 0 ≤ index) (hhi : index < ring_size) :
    ∃ r, firehose_callback_v1 pciaddr m ring_size index = .ok r ∧
      (∀ e ∈ r.events, 0 ≤ event_index e ∧ event_index e < ring_size) ∧
      0 ≤ r.index ∧ r.index < ring_size ∧
      (dispatched r.events).Nodup ∧
      (dispatched r.events).length ≤ ready_count m.rxring := by
  obtain ⟨i, rfl⟩ := Int.eq_ofNat_of_zero_le hlo
  obtain ⟨N, rfl⟩ := Int.eq_ofNat_of_zero_le (by omega : 0 ≤ ring_size)
  have hN : 1 ≤ N := by exact_mod_cast h1
  have hlen2 : m.rxring.length = N := by exact_mod_cast hlen
  have hplen2 : m.packets.length = N := by exact_mod_cast hplen
  have hi : i < N := by exact_mod_cast hhi
  obtain ⟨r, ds, f, hw, hs⟩ := walk_general pciaddr N hN hmax (ready_count m.rxring) m i
    (Nat.le_refl _) hlen2 hplen2 hi
  have hd := dispatched_eq_map pciaddr N m i r ds f hs
  refine ⟨r, hw, events_index_bounds pciaddr N hN m i r ds f hs, ?_, ?_, ?_, ?_⟩
  · rw [hs.index_eq]
    omega
  · rw [hs.index_eq]
    exact_mod_cast hs.final_lt
  · rw [hd]
    exact hs.nodup.map (fun a b h => by exact_mod_cast h)
  · rw [hd, List.length_map]
    exact length_le_ready_count ds m.rxring hs.nodup (fun j hj => (hs.ready_in j hj).2)

theorem any_size_terminates_in_bounds_witness :
    ∃ r, firehose_callback_v1 7 six_ring 6 1 = .ok r ∧
      (∀ e ∈ r.events, 0 ≤ event_index e ∧ event_index e < 6) ∧
      0 ≤ r.index ∧ r.index < 6 ∧
      (dispatched r.events).Nodup ∧
      (dispatched r.events).length ≤ ready_count six_ring.rxring :=
  any_size_terminates_in_bounds 7 six_ring 6 1 (by decide) (by decide) (by decide)
    (by decide) (by decide) (by decide)

/-! ## The order of the events -/

theorem calls_append (es fs : List Event) : calls (es ++ fs) = calls es ++ calls fs := by
  induction es with
  | nil => rfl
  | cons e es ih => cases e <;> simp [calls, ih]

theorem length_calls (es : List Event) : (calls es).length = (dispatched es).length := by
  induction es with
  | nil => rfl
  | cons e es ih => cases e <;> simp [calls, dispatched, ih]

theorem calls_trace (pciaddr : Ptr) (N : Nat) (m : Machine) (ds : List Nat)
    (hds : ∀ j ∈ ds, j < m.packets.length ∧ j < m.rxring.length) :
    calls (trace pciaddr N m.packets (m.rxring.map (fun d => d.length)) ds) =
      (ds.map (fun j : Nat => (j : Int))).filterMap (call_args pciaddr m) := by
  induction ds with
  | nil => rfl
  | cons j ds ih =>
    obtain ⟨hp, hr⟩ := hds j (List.mem_cons_self j ds)
    have hrest := ih (fun x hx => hds x (List.mem_cons_of_mem j hx))
    have hargs : call_args pciaddr m (j : Int) =
        some (pciaddr, m.packets.getD j 0,
          ((((m.rxring.map (fun d : firehose_rdesc => d.length)).getD j 0).val : Nat) :
            Int)) := by
      simp only [call_args, load_natCast, List.getD_eq_getElem?_getD, List.getElem?_map,
        List.getElem?_eq_getElem hp, List.getElem?_eq_getElem hr]
      rfl
    simp only [trace, calls, List.map_cons, List.filterMap_cons, hargs, hrest]

theorem calls_of_spec (pciaddr : Ptr) (N : Nat) (m : Machine) (i : Nat) (r : Outcome)
    (ds : List Nat) (f : Nat) (hlen : m.rxring.length = N) (hplen : m.packets.length = N)
    (hs : WalkSpec pciaddr N m i r ds f) :
    calls r.events = (dispatched r.events).filterMap (call_args pciaddr m) := by
  rw [dispatched_eq_map pciaddr N m i r ds f hs, hs.events_eq, calls_append,
    calls_trace pciaddr N m ds (fun j hj => by
      have := (hs.ready_in j hj).1
      omega)]
  simp [calls]

/-- C12: on a ring of size 8 in which the descriptors 5, 6, 7 and 0 are ready
and the descriptors 1, 2, 3 and 4 are not, `firehose_callback_v1` started at
index 5 makes exactly 4 callbacks, for the indices 5, 6, 7, 0 in that order,
each with the buffer `packets[x]` and the length of descriptor `x`, returns 1,
and leaves the status fields of the descriptors 5, 6, 7 and 0 at 0. -/
theorem scenario_size8 (pciaddr : Ptr) (m : Machine) (hv : ValidRing m 8 5)
    (hready : ∀ x ∈ ([5, 6, 7, 0] : List Int),
      ∃ d, load m.rxring x = some d ∧ ready d = true)
    (hidle : ∀ x ∈ ([1, 2, 3, 4] : List Int),
      ∃ d, load m.rxring x = some d ∧ ready d = false) :
    ∃ r, firehose_callback_v1 pciaddr m 8 5 = .ok r ∧
      dispatched r.events = [5, 6, 7, 0] ∧
      calls r.events = ([5, 6, 7, 0] : List Int).filterMap (call_args pciaddr m) ∧
      (calls r.events).length = 4 ∧
      r.index = 1 ∧
      ∀ x ∈ ([5, 6, 7, 0] : List Int), ∃ d, load r.mem.rxring x = some d ∧ d.status = 0 := by
  obtain ⟨r, N, i, K, hN, hi5, hi, hK, hlen, hplen, hw, hs⟩ :=
    walk_valid pciaddr m 8 5 hv
  have hN8 : N = 8 := by omega
  have hi5n : i = 5 := by omega
  subst hN8
  subst hi5n
  have hK4 : K = 4 := by
    apply run_length_unique pciaddr 8 m 5 r 4 K (by omega) hK hs
    · intro j hj
      interval_cases j
      · simpa [load] using hready 5 (by simp)
      · simpa [load] using hready 6 (by simp)
      · simpa [load] using hready 7 (by simp)
      · simpa [load] using hready 0 (by simp)
    · intro _
      simpa [load] using hidle 1 (by simp)
  subst hK4
  have hd : dispatched r.events = [5, 6, 7, 0] := by
    rw [dispatched_eq_map pciaddr 8 m 5 r _ _ hs]
    decide
  have hc := calls_of_spec pciaddr 8 m 5 r _ _ hlen hplen hs
  rw [hd] at hc
  have hcl : (calls r.events).length = 4 := by
    rw [length_calls, hd]
    rfl
  refine ⟨r, hw, hd, hc, hcl, ?_, ?_⟩
  · rw [hs.index_eq]
    decide
  · intro x hx
    have hxd : x ∈ dispatched r.events := by rw [hd]; exact hx
    obtain ⟨j, hj, rfl⟩ := mem_dispatched pciaddr 8 m 5 r _ _ hs x hxd
    obtain ⟨_, d, hdj, _⟩ := hs.ready_in j hj
    refine ⟨cleared d, ?_, rfl⟩
    rw [load_natCast, hs.ring_at, if_pos hj, hdj]
    rfl

theorem scenario_size8_witness :
    ∃ r, firehose_callback_v1 7 scenario_ring 8 5 = .ok r ∧
      dispatched r.events = [5, 6, 7, 0] ∧
      calls r.events = [(7, 105, 65), (7, 106, 66), (7, 107, 67), (7, 100, 60)] ∧
      (calls r.events).length = 4 ∧
      r.index = 1 ∧
      ∀ x ∈ ([5, 6, 7, 0] : List Int), ∃ d, load r.mem.rxring x = some d ∧ d.status = 0 := by
  obtain ⟨r, h1, h2, h3, h4, h5, h6⟩ := scenario_size8 7 scenario_ring
    ⟨⟨3, by norm_num⟩, by decide, by decide, by decide, by decide, by decide⟩
    (by
      intro x hx
      simp only [List.mem_cons, List.mem_singleton, List.not_mem_nil, or_false] at hx
      rcases hx with rfl | rfl | rfl | rfl <;> exact ⟨_, rfl, rfl⟩)
    (by
      intro x hx
      simp only [List.mem_cons, List.mem_singleton, List.not_mem_nil, or_false] at hx
      rcases hx with rfl | rfl | rfl | rfl <;> exact ⟨_, rfl, rfl⟩)
  have hargs : ([5, 6, 7, 0] : List Int).filterMap (call_args 7 scenario_ring) =
      [(7, 105, 65), (7, 106, 66), (7, 107, 67), (7, 100, 60)] := by decide
  exact ⟨r, h1, h2, by rw [h3]; exact hargs, h4, h5, h6⟩

/-! ## Ring sizes that are not a power of two -/

theorem and_pred_ne_zero (N : Nat) (h1 : 1 ≤ N) (hnp : ¬ ∃ k : Nat, N = 2 ^ k) :
    N &&& (N - 1) ≠ 0 := by
  have hle : 2 ^ Nat.log 2 N ≤ N := Nat.pow_log_le_self 2 (by omega)
  have hlt : N < 2 ^ (Nat.log 2 N).succ := Nat.lt_pow_succ_log_self (by omega) N
  generalize Nat.log 2 N = k at hle hlt
  have hne : N ≠ 2 ^ k := fun e => hnp ⟨k, e⟩
  rw [Nat.pow_succ] at hlt
  have hN : N = 2 ^ k + (N - 2 ^ k) := by omega
  have hP : N - 1 = 2 ^ k + (N - 1 - 2 ^ k) := by omega
  have hb1 : N.testBit k = true := by
    rw [hN, Nat.testBit_two_pow_add_eq, Nat.testBit_lt_two_pow (by omega)]
    rfl
  have hb2 : (N - 1).testBit k = true := by
    rw [hP, Nat.testBit_two_pow_add_eq, Nat.testBit_lt_two_pow (by omega)]
    rfl
  intro h0
  have hb : (N &&& (N - 1)).testBit k = true := by
    rw [Nat.testBit_and, hb1, hb2]
    rfl
  rw [h0, Nat.zero_testBit] at hb
  cases hb

theorem exists_unreachable (N : Nat) (h3 : 3 ≤ N) (hnp : ¬ ∃ k : Nat, N = 2 ^ k) :
    ∃ p, p < N ∧ ∀ y, nxt N y ≠ p := by
  have hle : 2 ^ Nat.log 2 (N - 1) ≤ N - 1 := Nat.pow_log_le_self 2 (by omega)
  have hlt : N - 1 < 2 ^ (Nat.log 2 (N - 1)).succ := Nat.lt_pow_succ_log_self (by omega) _
  generalize Nat.log 2 (N - 1) = k at hle hlt
  have hne : N ≠ 2 ^ (k + 1) := fun e => hnp ⟨k + 1, e⟩
  rw [Nat.pow_succ] at hlt hne
  have hpos : 0 < 2 ^ k := Nat.two_pow_pos k
  refine ⟨2 ^ k - 1, by omega, ?_⟩
  intro y hy
  unfold nxt at hy
  have hsub : (2 ^ k - 1) &&& (N - 1) = 2 ^ k - 1 := by
    conv_lhs => rw [← hy]
    rw [Nat.and_assoc, Nat.and_self]
    exact hy
  rw [Nat.and_comm, Nat.and_pow_two_sub_one_eq_mod] at hsub
  have hmod : (N - 1) % 2 ^ k = N - 1 - 2 ^ k := by
    rw [Nat.mod_eq_sub_mod hle, Nat.mod_eq_of_lt (by omega)]
  omega

theorem path_mem (N : Nat) (ds : List Nat) :
    ∀ (i f : Nat), Path N i ds f → ∀ j ∈ ds, j = i ∨ ∃ y, j = nxt N y := by
  induction ds with
  | nil =>
    intro i f _ j hj
    cases hj
  | cons d ds ih =>
    intro i f hp j hj
    obtain ⟨hd, hrest⟩ := hp
    rcases List.mem_cons.mp hj with h | h
    · left
      rw [h, hd]
    · right
      rcases ih (nxt N i) f hrest j h with h2 | ⟨y, h2⟩
      · exact ⟨i, h2⟩
      · exact ⟨y, h2⟩

theorem six_ring_walk :
    firehose_callback_v1 7 six_ring 6 1 =
      .ok ⟨1,
        body 7 100 ⟨4096, 60, 0, 1, 0, 0⟩ (body 7 101 ⟨8192, 61, 0, 1, 0, 0⟩ six_ring 1) 0,
        [.rd_status 1, .prefetch 0 100, .call 1 7 101 61, .wr_status 1,
         .rd_status 0, .prefetch 1 101, .call 0 7 100 60, .wr_status 0,
         .rd_status 1]⟩ := by
  have n1 : next_index 1 6 = 0 := by decide
  have n0 : next_index 0 6 = 1 := by decide
  rw [walk_step 7 six_ring 6 1 ⟨8192, 61, 0, 1, 0, 0⟩ 100 101 (by decide) (by decide)
    (by decide) (by decide) (by decide) (by decide), n1]
  rw [walk_step 7 _ 6 0 ⟨4096, 60, 0, 1, 0, 0⟩ 101 100 (by decide) (by decide)
    (by decide) (by decide) (by decide) (by decide), n0]
  rw [walk_stop 7 _ 6 1 (cleared ⟨8192, 61, 0, 1, 0, 0⟩) (by decide) (by decide)]
  rfl

/-- C16: for every `ring_size >= 3` that is not a power of two there is an
index `i` in `[0, ring_size)` whose next index `(i+1) & (ring_size-1)` is not
`(i+1) mod ring_size`, and there is a descriptor position `p` that the walker
never dispatches, ready or not, unless it is the start index. For
`ring_size` 6 the index 1 steps to 0 instead of 2: on a size-6 ring with all
descriptors ready the walker started at 1 dispatches 1 and 0 and returns 1,
leaving the ready descriptor 2 behind. -/
theorem non_power_of_two_skips (ring_size : Int) (h3 : 3 ≤ ring_size)
    (hnp : ¬ ∃ k : Nat, ring_size = 2 ^ k) :
    (∃ i : Int, 0 ≤ i ∧ i < ring_size ∧
      next_index i ring_size ≠ (i + 1) % ring_size) ∧
    (∃ p : Int, 0 ≤ p ∧ p < ring_size ∧
      ∀ (pciaddr : Ptr) (m : Machine) (index : Int),
        (m.rxring.length : Int) = ring_size → (m.packets.length : Int) = ring_size →
        ring_size ≤ INT_MAX → 0 ≤ index → index < ring_size → index ≠ p →
        ∃ r, firehose_callback_v1 pciaddr m ring_size index = .ok r ∧
          p ∉ dispatched r.events ∧ load r.mem.rxring p = load m.rxring p) ∧
    (next_index 1 6 = 0 ∧ ((1 : Int) + 1) % 6 = 2) ∧
    (∃ r, firehose_callback_v1 7 six_ring 6 1 = .ok r ∧
      dispatched r.events = [1, 0] ∧ r.index = 1 ∧
      ∃ d, load r.mem.rxring 2 = some d ∧ ready d = true) := by
  obtain ⟨N, rfl⟩ := Int.eq_ofNat_of_zero_le (by omega : 0 ≤ ring_size)
  have hN3 : 3 ≤ N := by exact_mod_cast h3
  have hnpN : ¬ ∃ k : Nat, N = 2 ^ k := by
    rintro ⟨k, hk⟩
    exact hnp ⟨k, by rw [hk]; push_cast; rfl⟩
  refine ⟨?_, ?_, ⟨by decide, by decide⟩, ?_⟩
  · refine ⟨((N - 1 : Nat) : Int), by omega, by omega, ?_⟩
    rw [next_index_natCast (N - 1) N (by omega)]
    have hmod : (((N - 1 : Nat) : Int) + 1) % (N : Int) = 0 := by
      have : ((N - 1 : Nat) : Int) + 1 = (N : Int) := by omega
      rw [this, Int.emod_self]
    rw [hmod]
    unfold nxt
    have hN1 : N - 1 + 1 = N := by omega
    rw [hN1]
    have := and_pred_ne_zero N (by omega) hnpN
    exact_mod_cast this
  · obtain ⟨p, hp, hun⟩ := exists_unreachable N hN3 hnpN
    refine ⟨(p : Int), by omega, by exact_mod_cast hp, ?_⟩
    intro pciaddr m index hlen hplen hmax hlo hhi hne
    obtain ⟨i, rfl⟩ := Int.eq_ofNat_of_zero_le hlo
    have hlen2 : m.rxring.length = N := by exact_mod_cast hlen
    have hplen2 : m.packets.length = N := by exact_mod_cast hplen
    have hi : i < N := by exact_mod_cast hhi
    obtain ⟨r, ds, f, hw, hs⟩ := walk_general pciaddr N (by omega) hmax
      (ready_count m.rxring) m i (Nat.le_refl _) hlen2 hplen2 hi
    have hpds : p ∉ ds := by
      intro hmem
      rcases path_mem N ds i f hs.path p hmem with h | ⟨y, h⟩
      · exact hne (by rw [h])
      · exact hun y h.symm
    refine ⟨r, hw, ?_, ?_⟩
    · intro hmem
      exact hpds ((natCast_mem_dispatched pciaddr N m i r ds f hs p).mp hmem)
    · rw [load_natCast, load_natCast, hs.ring_at, if_neg hpds]
  · exact ⟨_, six_ring_walk, by decide, rfl, ⟨12288, 62, 0, 1, 0, 0⟩, by decide, by decide⟩

theorem non_power_of_two_skips_witness :
    (∃ i : Int, 0 ≤ i ∧ i < 6 ∧ next_index i 6 ≠ (i + 1) % 6) ∧
    (∃ p : Int, 0 ≤ p ∧ p < 6 ∧
      ∀ (pciaddr : Ptr) (m : Machine) (index : Int),
        (m.rxring.length : Int) = 6 → (m.packets.length : Int) = 6 →
        (6 : Int) ≤ INT_MAX → 0 ≤ index → index < 6 → index ≠ p →
        ∃ r, firehose_callback_v1 pciaddr m 6 index = .ok r ∧
          p ∉ dispatched r.events ∧ load r.mem.rxring p = load m.rxring p) ∧
    (next_index 1 6 = 0 ∧ ((1 : Int) + 1) % 6 = 2) ∧
    (∃ r, firehose_callback_v1 7 six_ring 6 1 = .ok r ∧
      dispatched r.events = [1, 0] ∧ r.index = 1 ∧
      ∃ d, load r.mem.rxring 2 = some d ∧ ready d = true) :=
  non_power_of_two_skips 6 (by decide) (by
    rintro ⟨k, hk⟩
    match k with
    | 0 => norm_num at hk
    | 1 => norm_num at hk
    | 2 => norm_num at hk
    | k + 3 =>
      have h8 : (2 : Int) ^ (k + 3) = 8 * 2 ^ k := by ring
      have hpos : (0 : Int) < 2 ^ k := by positivity
      omega)

/-! ## Dependence on the status bits -/

theorem ready_eq_bit0 (d : firehose_rdesc) : ready d = decide (d.status.val % 2 = 1) := by
  unfold ready
  rw [Nat.and_one_is_mod]
  have := Nat.mod_two_eq_zero_or_one d.status.val
  rcases this with h | h <;> simp [h]

theorem same_bit0_ready (d d2 : firehose_rdesc) (h : same_bit0 d d2 = true) :
    ready d2 = ready d := by
  rw [ready_eq_bit0, ready_eq_bit0]
  simp only [same_bit0, Bool.and_eq_true, beq_iff_eq] at h
  rw [h.2]

theorem same_bit0_length (d d2 : firehose_rdesc) (h : same_bit0 d d2 = true) :
    d2.length = d.length := by
  simp only [same_bit0, Bool.and_eq_true, beq_iff_eq] at h
  exact h.1.1.1.2.symm

theorem same_rings_at (m m2 : Machine) (h : same_rings m m2) (p : Nat) (d : firehose_rdesc)
    (hd : m.rxring[p]? = some d) :
    ∃ d2, m2.rxring[p]? = some d2 ∧ same_bit0 d d2 = true := by
  obtain ⟨_, hlen, hall⟩ := h
  have hp : p < m.rxring.length := by
    by_contra hge
    rw [List.getElem?_eq_none (by omega)] at hd
    cases hd
  have hd2 : m2.rxring[p]? = some m2.rxring[p] := List.getElem?_eq_getElem (by omega)
  refine ⟨m2.rxring[p], hd2, ?_⟩
  have hz : (List.zip m.rxring m2.rxring)[p]? = some (d, m2.rxring[p]) :=
    List.getElem?_zip_eq_some.mpr ⟨hd, hd2⟩
  exact hall _ (List.getElem?_mem hz)

theorem not_mem_run (N i K : Nat) (hK : K < N) :
    (i + K) % N ∉ (List.range K).map (fun j => (i + j) % N) := by
  intro hmem
  obtain ⟨j, hj, hje⟩ := List.mem_map.mp hmem
  have hj2 : j < K := List.mem_range.mp hj
  have := add_mod_inj N i j K (by omega) hK hje
  omega

/-- C17: the walker tests only bit 0 of the status field. On a valid ring
every dispatched descriptor had bit 0 set; every status read but the last led
to a dispatch and the last found bit 0 clear; a start descriptor with bit 0
clear stops the walk at once and one with bit 0 set is dispatched, whatever
the other status bits and the errors field are. A ring that differs from the
given one only in status bits 1 to 7 and in errors fields yields the same
events (so the same callbacks with the same arguments) and the same returned
index. -/
theorem dispatch_depends_on_bit0 (pciaddr : Ptr) (m m2 : Machine) (ring_size index : Int)
    (hv : ValidRing m ring_size index) (hsame : same_rings m m2) :
    (∀ d : firehose_rdesc, ready d = decide (d.status.val % 2 = 1)) ∧
    ∃ r r2, firehose_callback_v1 pciaddr m ring_size index = .ok r ∧
      firehose_callback_v1 pciaddr m2 ring_size index = .ok r2 ∧
      r2.index = r.index ∧ r2.events = r.events ∧ calls r2.events = calls r.events ∧
      (∀ x ∈ dispatched r.events,
        ∃ d, load m.rxring x = some d ∧ d.status.val % 2 = 1) ∧
      polled r.events = dispatched r.events ++ [r.index] ∧
      (∃ d, load r.mem.rxring r.index = some d ∧ d.status.val % 2 = 0) ∧
      (∀ d, load m.rxring index = some d → d.status.val % 2 = 0 →
        dispatched r.events = [] ∧ r.index = index) ∧
      (∀ d, load m.rxring index = some d → d.status.val % 2 = 1 →
        (dispatched r.events).head? = some index) := by
  refine ⟨ready_eq_bit0, ?_⟩
  have hv2 : ValidRing m2 ring_size index :=
    ⟨hv.pow2, hv.int_range, by rw [← hsame.2.1]; exact hv.rxring_len,
      by rw [← hsame.1]; exact hv.packets_len, hv.index_lo, hv.index_hi⟩
  obtain ⟨r, N, i, K, rfl, rfl, hi, hK, hlen, hplen, hw, hs⟩ :=
    walk_valid pciaddr m ring_size index hv
  obtain ⟨r2, N2, i2, K2, hN2, hi2, _, hK2, _, _, hw2, hs2⟩ :=
    walk_valid pciaddr m2 N i hv2
  have hNN : N2 = N := by exact_mod_cast hN2.symm
  have hii : i2 = i := by exact_mod_cast hi2.symm
  subst hNN
  subst hii
  have hstopm : K < N2 → ∃ d, m.rxring[(i2 + K) % N2]? = some d ∧ ready d = false := by
    intro hlt
    obtain ⟨d, hd, hr⟩ := hs.final_idle
    rw [hs.ring_at, if_neg (not_mem_run N2 i2 K hlt)] at hd
    exact ⟨d, hd, hr⟩
  have hKK : K2 = K := by
    apply run_length_unique pciaddr N2 m2 i2 r2 K K2 hK hK2 hs2
    · intro j hj
      obtain ⟨_, d, hd, hr⟩ := hs.ready_in ((i2 + j) % N2)
        (List.mem_map.mpr ⟨j, List.mem_range.mpr hj, rfl⟩)
      obtain ⟨d2, hd2, hsb⟩ := same_rings_at m m2 hsame _ d hd
      exact ⟨d2, hd2, by rw [same_bit0_ready d d2 hsb]; exact hr⟩
    · intro hlt
      obtain ⟨d, hd, hr⟩ := hstopm hlt
      obtain ⟨d2, hd2, hsb⟩ := same_rings_at m m2 hsame _ d hd
      exact ⟨d2, hd2, by rw [same_bit0_ready d d2 hsb]; exact hr⟩
  subst hKK
  have hev : r2.events = r.events := by
    rw [hs.events_eq, hs2.events_eq, ← hsame.1]
    congr 1
    apply trace_congr
    intro j hj
    obtain ⟨_, d, hd, _⟩ := hs.ready_in j hj
    obtain ⟨d2, hd2, hsb⟩ := same_rings_at m m2 hsame _ d hd
    rw [List.getElem?_map, List.getElem?_map, hd, hd2]
    simp only [Option.map_some', Option.some.injEq]
    exact same_bit0_length d d2 hsb
  have hd := dispatched_of_spec pciaddr N2 m i2 r K2 hs
  have hdm := dispatched_eq_map pciaddr N2 m i2 r _ _ hs
  refine ⟨r, r2, hw, hw2, ?_, hev, by rw [hev], ?_, ?_, ?_, ?_, ?_⟩
  · rw [hs.index_eq, hs2.index_eq]
  · intro x hx
    obtain ⟨j, hj, rfl⟩ := mem_dispatched pciaddr N2 m i2 r _ _ hs x hx
    obtain ⟨_, d, hdj, hr⟩ := hs.ready_in j hj
    refine ⟨d, by rw [load_natCast]; exact hdj, ?_⟩
    rw [ready_eq_bit0] at hr
    exact of_decide_eq_true hr
  · rw [polled_of_spec pciaddr N2 m i2 r K2 hs, hd, hs.index_eq]
    unfold ring_order
    rw [List.range_succ, List.map_append, List.map_singleton, natCast_add_emod]
  · obtain ⟨d, hdf, hr⟩ := hs.final_idle
    refine ⟨d, by rw [hs.index_eq, load_natCast]; exact hdf, ?_⟩
    rw [ready_eq_bit0] at hr
    have := of_decide_eq_false hr
    have := Nat.mod_two_eq_zero_or_one d.status.val
    omega
  · intro d hld hbit
    rw [load_natCast] at hld
    have hnr : ready d = false := by
      rw [ready_eq_bit0]
      exact decide_eq_false (by omega)
    have hK0 : K2 = 0 := by
      apply run_length_unique pciaddr N2 m i2 r 0 K2 (by omega) hK hs
      · intro j hj
        omega
      · intro _
        rw [Nat.add_zero, Nat.mod_eq_of_lt hi]
        exact ⟨d, hld, hnr⟩
    subst hK0
    refine ⟨by rw [hdm]; rfl, ?_⟩
    rw [hs.index_eq, Nat.add_zero, Nat.mod_eq_of_lt hi]
  · intro d hld hbit
    rw [load_natCast] at hld
    have hrd : ready d = true := by
      rw [ready_eq_bit0]
      exact decide_eq_true hbit
    cases K2 with
    | zero =>
      exfalso
      obtain ⟨d0, hd0, hr0⟩ := hstopm (by omega)
      rw [Nat.add_zero, Nat.mod_eq_of_lt hi, hld] at hd0
      cases hd0
      rw [hrd] at hr0
      cases hr0
    | succ K3 =>
      rw [hdm, List.range_succ_eq_map]
      simp only [List.map_cons, List.head?_cons, Nat.add_zero]
      rw [Nat.mod_eq_of_lt hi]

theorem dispatch_depends_on_bit0_witness :
    (∃ r r2, firehose_callback_v1 7 wrap_ring_flags 4 3 = .ok r ∧
      firehose_callback_v1 7 wrap_ring 4 3 = .ok r2 ∧
      r2.index = r.index ∧ r2.events = r.events ∧
      (dispatched r.events).head? = some 3) ∧
    (∃ r, firehose_callback_v1 7 wrap_ring_flags 4 2 = .ok r ∧
      dispatched r.events = [] ∧ r.index = 2) := by
  constructor
  · obtain ⟨_, r, r2, h1, h2, h3, h4, _, _, _, _, _, h10⟩ :=
      dispatch_depends_on_bit0 7 wrap_ring_flags wrap_ring 4 3
        ⟨⟨2, by norm_num⟩, by decide, by decide, by decide, by decide, by decide⟩
        ⟨by decide, by decide, by decide⟩
    exact ⟨r, r2, h1, h2, h3, h4, h10 ⟨16384, 63, 0, 255, 255, 0⟩ (by decide) (by decide)⟩
  · obtain ⟨_, r, r2, h1, _, _, _, _, _, _, _, h9, _⟩ :=
      dispatch_depends_on_bit0 7 wrap_ring_flags wrap_ring 4 2
        ⟨⟨2, by norm_num⟩, by decide, by decide, by decide, by decide, by decide⟩
        ⟨by decide, by decide, by decide⟩
    obtain ⟨h11, h12⟩ := h9 ⟨12288, 62, 0, 2, 0, 0⟩ (by decide) (by decide)
    exact ⟨r, h1, h11, h12⟩

end Firehose
